import Mathlib

/-!
# Verification of the Users/Tasks record-management service

Shallow embedding of the service's core (query-options parser and
referential-integrity synchronizer) and proofs of the specification claims.

Modelling conventions:
* Untyped JS request values are embedded as `JSValue` (scalars) and `JSON`
  (parsed structured parameters).  `JSON.parse` is embedded at the level of
  its observable outcome (`RawJSON`): a raw request string either fails to
  parse or yields a `JSON` value.
* `Number(...)` coercion of the `skip`/`limit` parameters is embedded at the
  level of its observable outcome (`NumRaw`): NaN, a non-integral number, or
  an integer.
* JS `Date` construction is likewise embedded by outcome (`DateInput`).
* The Mongo store is embedded as in-memory lists of documents; each store
  primitive used by the code (`find`, `findById`, `updateOne` with
  `$pull`/`$addToSet`, `updateMany` with `$set`, `save`, `deleteOne`)
  becomes a pure function on the state.
* Mongoose schema validation at `save` time (required fields, unique email)
  is not modelled; the success path of the model is therefore a superset of
  the real success path, which is sound for the invariant claims.
-/

/-- Embedded JavaScript scalar values as they arrive in a request body or
query string. -/
inductive JSValue where
  | undef
  | nullv
  | bool (b : Bool)
  | num (n : Int)
  | str (s : String)
deriving DecidableEq, Repr

/-- JS truthiness for `JSValue` (`Boolean(value)` / `if (value)`). -/
def truthyJS : JSValue → Bool
  | .undef => false
  | .nullv => false
  | .bool b => b
  | .num n => decide (n ≠ 0)
  | .str s => decide (s ≠ "")

/-- JS `String(value)` coercion. -/
def jsToString : JSValue → String
  | .undef => "undefined"
  | .nullv => "null"
  | .bool true => "true"
  | .bool false => "false"
  | .num n => toString n
  | .str s => s

/-- Parsed JSON documents (the result of a successful `JSON.parse`). -/
inductive JSON where
  | null
  | bool (b : Bool)
  | num (n : Int)
  | str (s : String)
  | arr (elems : List JSON)
  | obj (fields : List (String × JSON))

/-- JS truthiness for parsed JSON values: objects and arrays (even empty
ones) are truthy; `null`, `false`, `0` and `""` are falsy. -/
def truthyJSON : JSON → Bool
  | .null => false
  | .bool b => b
  | .num n => decide (n ≠ 0)
  | .str s => decide (s ≠ "")
  | .arr _ => true
  | .obj _ => true

/-- A raw string parameter, embedded by the outcome of `JSON.parse`. -/
inductive RawJSON where
  | malformed
  | wellFormed (j : JSON)

/-- A raw `skip`/`limit` parameter, embedded by the outcome of `Number(...)`:
`NaN`, a finite non-integral number, or an integer. -/
inductive NumRaw where
  | nan
  | nonIntNum
  | intNum (n : Int)
deriving DecidableEq, Repr

/-- A raw date field, embedded by the outcome of the JS `Date` coercion in
`parseDateValue`: absent-like input (`undefined`/`null`/`''`), input whose
`Date` is valid (carrying its timestamp), or input whose `Date` is `NaN`. -/
inductive DateInput where
  | absent
  | valid (t : Int)
  | invalid
deriving DecidableEq, Repr

/-- Structured errors produced by `createError` (`handleError` maps them to
HTTP responses; the `data` payload is always `{}` at the call sites that
matter here and is omitted). -/
structure Err where
  status : Nat
  message : String
deriving DecidableEq, Repr

/-- `createError(status, message)` from the source. -/
def createError (status : Nat) (message : String) : Err :=
  { status := status, message := message }

/-- `parseJSONParam(value, paramName)`: absent input passes through as
absent; a malformed value raises a 400 naming the parameter. -/
def parseJSONParam (value : Option RawJSON) (paramName : String) :
    Except Err (Option JSON) :=
  match value with
  | none => .ok none
  | some .malformed =>
      .error (createError 400 ("Invalid JSON in \"" ++ paramName ++ "\" parameter"))
  | some (.wellFormed j) => .ok (some j)

/-- `parseNumberParam(value, paramName)`: absent input passes through;
anything that does not coerce to a non-negative integer raises a 400. -/
def parseNumberParam (value : Option NumRaw) (paramName : String) :
    Except Err (Option Int) :=
  match value with
  | none => .ok none
  | some .nan =>
      .error (createError 400 ("Parameter \"" ++ paramName ++ "\" must be a non-negative integer"))
  | some .nonIntNum =>
      .error (createError 400 ("Parameter \"" ++ paramName ++ "\" must be a non-negative integer"))
  | some (.intNum n) =>
      if n < 0 then
        .error (createError 400 ("Parameter \"" ++ paramName ++ "\" must be a non-negative integer"))
      else .ok (some n)

/-- JS `value.toLowerCase()`, embedded character-by-character so that it
reduces on concrete strings. -/
def jsLower (s : String) : String :=
  String.mk (s.data.map Char.toLower)

/-- `parseCountParam(value)` from the source: `undefined` → `false`;
booleans pass through; strings compare their lowercase form against
`'true'`; everything else → `false`. -/
def parseCountParam (value : JSValue) : Bool :=
  match value with
  | .undef => false
  | .bool b => b
  | .str s => decide (jsLower s = "true")
  | _ => false

/-- `parseBoolean(value, defaultValue)` from the source: `undefined`/`null`
→ the default; booleans pass through; strings `'true'`/`'false'`
(case-insensitively) parse; any other value falls through to
`Boolean(value)` (JS truthiness). -/
def parseBoolean (value : JSValue) (defaultValue : Bool) : Bool :=
  match value with
  | .undef => defaultValue
  | .nullv => defaultValue
  | .bool b => b
  | .str s =>
      if jsLower s = "true" then true
      else if jsLower s = "false" then false
      else truthyJS (.str s)
  | v => truthyJS v

/-- `parseDateValue(value, fieldName)` from the source, embedded by the
outcome of the `Date` coercion: absent-like input is "no value", a valid
date passes through, an invalid one raises a 400 naming the field. -/
def parseDateValue (value : DateInput) (fieldName : String) :
    Except Err (Option Int) :=
  match value with
  | .absent => .ok none
  | .valid t => .ok (some t)
  | .invalid =>
      .error (createError 400 ("Invalid date supplied for \"" ++ fieldName ++ "\""))

/-- The raw query parameters consumed by `buildQueryOptions`
(`req.query.where/sort/select/filter/skip/limit/count`). -/
structure ReqQuery where
  whereQ : Option RawJSON
  sortQ : Option RawJSON
  selectQ : Option RawJSON
  filterQ : Option RawJSON
  skipQ : Option NumRaw
  limitQ : Option NumRaw
  countQ : JSValue

/-- The per-collection options handed to `buildQueryOptions` (`options`). -/
structure BuildOptions where
  defaultLimit : Option Int

/-- The typed query descriptor `buildQueryOptions` returns. -/
structure QueryOpts where
  filter : JSON
  sort : Option JSON
  select : Option JSON
  skip : Option Int
  limit : Option Int
  count : Bool

/-- `buildQueryOptions(req, options)` from the source.  `where` defaults to
`{}` through `|| {}` (any falsy parse result becomes the empty filter);
`select` falls back to the legacy `filter` alias; `count && select` uses JS
truthiness of the parsed projection; in count mode the limit is forced to
`undefined`, otherwise an absent limit picks up the collection default. -/
def buildQueryOptions (req : ReqQuery) (options : BuildOptions) :
    Except Err QueryOpts :=
  match parseJSONParam req.whereQ "where" with
  | .error e => .error e
  | .ok filterRaw =>
  let filter := match filterRaw with
    | some j => if truthyJSON j then j else JSON.obj []
    | none => JSON.obj []
  match parseJSONParam req.sortQ "sort" with
  | .error e => .error e
  | .ok sort =>
  let selectParamName :=
    if req.selectQ.isSome then "select"
    else if req.filterQ.isSome then "filter" else "select"
  let selectValue := if req.selectQ.isSome then req.selectQ else req.filterQ
  match parseJSONParam selectValue selectParamName with
  | .error e => .error e
  | .ok select =>
  match parseNumberParam req.skipQ "skip" with
  | .error e => .error e
  | .ok skip =>
  match parseNumberParam req.limitQ "limit" with
  | .error e => .error e
  | .ok limitRaw =>
  let count := parseCountParam req.countQ
  if count && (match select with | some j => truthyJSON j | none => false) then
    .error (createError 400 "Cannot use \"select\" parameter when \"count\" is true")
  else
    let limit :=
      if count then none
      else match limitRaw with
        | none => options.defaultLimit
        | some l => some l
    .ok { filter := filter, sort := sort, select := select,
          skip := skip, limit := limit, count := count }

/-- The raw `pendingTasks` request value: a scalar or an array of scalars
(`Array.isArray` distinguishes the two). -/
inductive RawIds where
  | single (v : JSValue)
  | list (vs : List JSValue)

/-- The `req.body.pendingTasks || []` guard at the call sites of
`normalizeIdArray`: a falsy scalar is replaced by the empty array (an array,
even empty, is always truthy). -/
def pendingOrEmpty (values : RawIds) : RawIds :=
  match values with
  | .single v => if truthyJS v then .single v else .list []
  | .list vs => .list vs

/-- The entry filter inside `normalizeIdArray`:
`value !== undefined && value !== null && value !== ''` (strict equality, so
`0` and `false` are kept). -/
def keepEntry : JSValue → Bool
  | .undef => false
  | .nullv => false
  | .str "" => false
  | _ => true

/-- `Array.from(new Set(cleaned))`: de-duplication keeping the first
occurrence of each element, in order. -/
def dedupFirst : List String → List String
  | [] => []
  | x :: xs => x :: (dedupFirst xs).filter (fun y => decide (y ≠ x))

/-- The entries of `normalizeIdArray`'s `cleaned` intermediate: drop
`undefined`/`null`/`''` and coerce the rest with `String(...)`. -/
def cleanedStrings (vs : List JSValue) : List String :=
  (vs.filter keepEntry).map jsToString

/-- `normalizeIdArray(values, fieldName)` from the source: `undefined`/
`null` yield `[]`; a non-array input is wrapped into a one-element array;
entries are cleaned and de-duplicated and each survivor is checked against
the store's id validator (`mongoose.Types.ObjectId.isValid`, embedded as the
`isValid` parameter), the first failure raising a 400 naming the field. -/
def normalizeIdArray (isValid : String → Bool) (values : RawIds)
    (fieldName : String) : Except Err (List String) :=
  match values with
  | .single .undef => .ok []
  | .single .nullv => .ok []
  | .single v =>
      let unique := dedupFirst (cleanedStrings [v])
      match unique.find? (fun id => ! isValid id) with
      | some _ =>
          .error (createError 400 ("Invalid task id in \"" ++ fieldName ++ "\" array"))
      | none => .ok unique
  | .list vs =>
      let unique := dedupFirst (cleanedStrings vs)
      match unique.find? (fun id => ! isValid id) with
      | some _ =>
          .error (createError 400 ("Invalid task id in \"" ++ fieldName ++ "\" array"))
      | none => .ok unique

/-- The query a list handler hands to the store's `find`, after the
truthiness-guarded `select`/`sort` chaining and the `skip`/`limit`
applications. -/
structure FindCall where
  filter : JSON
  select : Option JSON
  sort : Option JSON
  skip : Option Int
  limit : Option Int

/-- What a list handler does after parsing its query options: call
`countDocuments`, answer `[]` without touching the store, or run a `find`
query. -/
inductive ListOutcome where
  | countDocs (filter : JSON)
  | shortCircuit
  | findQuery (q : FindCall)

/-- `if (queryOptions.select) query = query.select(...)`: the projection (or
sort) is chained onto the query only when truthy. -/
def truthyOpt (o : Option JSON) : Option JSON :=
  match o with
  | some j => if truthyJSON j then some j else none
  | none => none

/-- The `GET /users` handler (list path): parse options with no default
limit, then either count or run `find` — there is no `limit === 0`
short-circuit on this collection. -/
def usersGet (req : ReqQuery) : Except Err ListOutcome :=
  match buildQueryOptions req { defaultLimit := none } with
  | .error e => .error e
  | .ok o =>
      if o.count then .ok (.countDocs o.filter)
      else .ok (.findQuery { filter := o.filter, select := truthyOpt o.select,
                             sort := truthyOpt o.sort, skip := o.skip, limit := o.limit })

/-- The `GET /tasks` handler (list path): parse options with a default limit
of 100, then count, short-circuit to `[]` when `limit === 0`, or run
`find`. -/
def tasksGet (req : ReqQuery) : Except Err ListOutcome :=
  match buildQueryOptions req { defaultLimit := some 100 } with
  | .error e => .error e
  | .ok o =>
      if o.count then .ok (.countDocs o.filter)
      else if o.limit = some 0 then .ok .shortCircuit
      else .ok (.findQuery { filter := o.filter, select := truthyOpt o.select,
                             sort := truthyOpt o.sort, skip := o.skip, limit := o.limit })

namespace Model

/-- A stored User document (fields of the Mongoose `User` schema touched by
the routes; `dateCreated` is never read or rewritten and is omitted). -/
structure User where
  id : String
  name : String
  email : String
  pendingTasks : List String
deriving DecidableEq, Repr

/-- A stored Task document (fields of the Mongoose `Task` schema touched by
the routes; `dateCreated` is never read or rewritten and is omitted). -/
structure Task where
  id : String
  name : String
  description : String
  deadline : Option Int
  completed : Bool
  assignedUser : String
  assignedUserName : String
deriving DecidableEq, Repr

/-- The two Mongo collections. -/
structure DB where
  users : List User
  tasks : List Task
deriving DecidableEq, Repr

/-- `User.findById` / `Task.findById`. -/
def DB.findUser (db : DB) (uid : String) : Option User :=
  db.users.find? (fun u => decide (u.id = uid))

/-- `Task.findById`. -/
def DB.findTask (db : DB) (tid : String) : Option Task :=
  db.tasks.find? (fun t => decide (t.id = tid))

/-- `removeTaskFromUser(taskId, userId)`:
`User.updateOne({_id: userId}, {$pull: {pendingTasks: taskId}})`, a no-op
when `userId` is falsy. -/
def removeTaskFromUser (taskId userId : String) (db : DB) : DB :=
  if userId = "" then db
  else { db with users := db.users.map (fun u =>
    if u.id = userId then
      { u with pendingTasks := u.pendingTasks.filter (fun x => decide (x ≠ taskId)) }
    else u) }

/-- `addTaskToUser(taskId, userId)`:
`User.updateOne({_id: userId}, {$addToSet: {pendingTasks: taskId}})`, a
no-op when `userId` is falsy; `$addToSet` appends only when absent. -/
def addTaskToUser (taskId userId : String) (db : DB) : DB :=
  if userId = "" then db
  else { db with users := db.users.map (fun u =>
    if u.id = userId then
      { u with pendingTasks :=
        if taskId ∈ u.pendingTasks then u.pendingTasks else u.pendingTasks ++ [taskId] }
    else u) }

/-- `task.save()` on a fetched document: replace the stored document with
the same `_id`. -/
def saveTask (t : Task) (db : DB) : DB :=
  { db with tasks := db.tasks.map (fun t0 => if t0.id = t.id then t else t0) }

/-- `user.save()` on a fetched document: replace the stored document with
the same `_id`. -/
def saveUser (u : User) (db : DB) : DB :=
  { db with users := db.users.map (fun u0 => if u0.id = u.id then u else u0) }

/-- `save()` on a freshly constructed document: insert. -/
def insertTask (t : Task) (db : DB) : DB :=
  { db with tasks := db.tasks ++ [t] }

/-- `save()` on a freshly constructed document: insert. -/
def insertUser (u : User) (db : DB) : DB :=
  { db with users := db.users ++ [u] }

/-- `Task.deleteOne({_id: taskId})`. -/
def deleteTaskDoc (tid : String) (db : DB) : DB :=
  { db with tasks := db.tasks.filter (fun t => decide (t.id ≠ tid)) }

/-- `User.deleteOne({_id: userId})`. -/
def deleteUserDoc (uid : String) (db : DB) : DB :=
  { db with users := db.users.filter (fun u => decide (u.id ≠ uid)) }

/-- The `$set` payload shared by the two bulk clears: unassign a task. -/
def clearOwner (t : Task) : Task :=
  { t with assignedUser := "", assignedUserName := "unassigned" }

/-- The update applied to each task of the "current" pass of
`syncUserPendingTasks`: point it at this user and force it incomplete
(`if (task.completed) task.completed = false`). -/
def reassignTo (uid nm : String) (t : Task) : Task :=
  { t with assignedUser := uid, assignedUserName := nm, completed := false }

/-- `ensureTasksExist(taskIds)`: `Task.find({_id: {$in: taskIds}})` must
return as many documents as there are ids. -/
def ensureTasksExist (taskIds : List String) (db : DB) : Except Err Unit :=
  if taskIds = [] then .ok ()
  else if (db.tasks.filter (fun t => decide (t.id ∈ taskIds))).length = taskIds.length
    then .ok ()
    else .error (createError 400 "One or more tasks in pendingTasks do not exist")

/-- The "removed" pass of `syncUserPendingTasks`:
`Task.updateMany({_id: {$in: removed}, assignedUser: userId}, {$set:
{assignedUser: '', assignedUserName: 'unassigned'}})`. -/
def clearRemoved (removed : List String) (uid : String) (db : DB) : DB :=
  { db with tasks := db.tasks.map (fun t =>
      if t.id ∈ removed ∧ t.assignedUser = uid then clearOwner t else t) }

/-- One iteration of the "current" pass of `syncUserPendingTasks`: detach
the task from a different previous owner, then save it as owned by this
user and not completed. -/
def syncOne (uid nm : String) (db : DB) (t : Task) : DB :=
  let db1 := if t.assignedUser ≠ "" ∧ t.assignedUser ≠ uid
    then removeTaskFromUser t.id t.assignedUser db else db
  saveTask (reassignTo uid nm t) db1

/-- `syncUserPendingTasks(userDoc, previousPending)` from the source: clear
the tasks dropped from the pending list that still point at this user, then
walk the tasks of the new list, stealing each from any different owner and
forcing it incomplete. -/
def syncUserPendingTasks (u : User) (previousPending : List String) (db : DB) : DB :=
  let currentIds := u.pendingTasks
  let removed := previousPending.filter (fun id => decide (id ∉ currentIds))
  let db1 := if removed = [] then db else clearRemoved removed u.id db
  if currentIds = [] then db1
  else
    let found := db1.tasks.filter (fun t => decide (t.id ∈ currentIds))
    found.foldl (syncOne u.id u.name) db1

/-- `unassignTask(taskDoc)`: detach from the current owner (a store write)
and clear the document's owner fields (returned, to be saved by the
caller). -/
def unassignTask (t : Task) (db : DB) : Task × DB :=
  let db1 := if t.assignedUser ≠ "" then removeTaskFromUser t.id t.assignedUser db else db
  (clearOwner t, db1)

/-- `assignTask(taskDoc, userDoc)`: detach from a different current owner (a
store write) and point the document at the new owner (returned, to be saved
by the caller). -/
def assignTask (t : Task) (u : User) (db : DB) : Task × DB :=
  let db1 := if t.assignedUser ≠ "" ∧ t.assignedUser ≠ u.id
    then removeTaskFromUser t.id t.assignedUser db else db
  ({ t with assignedUser := u.id, assignedUserName := u.name }, db1)

end Model

namespace Model

/-- The request-body fields read by the Task create/update handlers.
`name` is taken as given (schema validation at save time is out of model);
`description` distinguishes "absent" from a supplied string. -/
structure TaskBody where
  name : String
  description : Option String
  completed : JSValue
  assignedUser : JSValue
  deadline : DateInput

/-- The request-body fields read by the User create/update handlers. -/
structure UserBody where
  name : String
  email : String
  pendingTasks : RawIds

/-- `req.body.assignedUser ? String(req.body.assignedUser) : ''`. -/
def bodyAssignedUser (v : JSValue) : String :=
  if truthyJS v then jsToString v else ""

/-- The assigned-user lookup shared by `POST /tasks` and `PUT /tasks/:id`:
an empty id yields no user; otherwise the id must be valid and resolve. -/
def lookupAssignedUser (isValid : String → Bool) (assignedUserId : String)
    (db : DB) : Except Err (Option User) :=
  if assignedUserId = "" then .ok none
  else if ¬ isValid assignedUserId then
    .error (createError 400 "Invalid user id in assignedUser")
  else match db.findUser assignedUserId with
    | none => .error (createError 400 "Assigned user does not exist")
    | some u => .ok (some u)

/-- `POST /users`: normalize and existence-check `pendingTasks`, insert the
new user (with store-generated fresh id `uid`), then resync with an empty
previous pending list. -/
def usersPost (isValid : String → Bool) (uid : String) (body : UserBody)
    (db : DB) : Except Err DB :=
  match normalizeIdArray isValid (pendingOrEmpty body.pendingTasks) "pendingTasks" with
  | .error e => .error e
  | .ok pendingTaskIds =>
  match ensureTasksExist pendingTaskIds db with
  | .error e => .error e
  | .ok _ =>
    let user : User :=
      { id := uid, name := body.name, email := body.email, pendingTasks := pendingTaskIds }
    .ok (syncUserPendingTasks user [] (insertUser user db))

/-- `PUT /users/:id`: fetch, remember the previous pending list, normalize
and existence-check the new one, save the rewritten document, resync. -/
def userPut (isValid : String → Bool) (uid : String) (body : UserBody)
    (db : DB) : Except Err DB :=
  if ¬ isValid uid then .error (createError 400 "Invalid user id")
  else match db.findUser uid with
  | none => .error (createError 404 "User not found")
  | some user =>
  let previousPending := user.pendingTasks
  match normalizeIdArray isValid (pendingOrEmpty body.pendingTasks) "pendingTasks" with
  | .error e => .error e
  | .ok pendingTaskIds =>
  match ensureTasksExist pendingTaskIds db with
  | .error e => .error e
  | .ok _ =>
    let user' : User :=
      { user with name := body.name, email := body.email, pendingTasks := pendingTaskIds }
    .ok (syncUserPendingTasks user' previousPending (saveUser user' db))

/-- `DELETE /users/:id`: clear every task pointing at the user
(`Task.updateMany({assignedUser: userId}, {$set: ...})`), then delete the
user document. -/
def userDelete (isValid : String → Bool) (uid : String) (db : DB) :
    Except Err DB :=
  if ¬ isValid uid then .error (createError 400 "Invalid user id")
  else match db.findUser uid with
  | none => .error (createError 404 "User not found")
  | some _ =>
    let db1 : DB := { db with tasks := db.tasks.map (fun t =>
        if t.assignedUser = uid then clearOwner t else t) }
    .ok (deleteUserDoc uid db1)

/-- `POST /tasks`: resolve the optional assigned user, parse `completed`
and `deadline`, build the document (initially unassigned), `assignTask`
when a user was resolved, insert, then attach to the owner's pending set
when owned and not completed. -/
def tasksPost (isValid : String → Bool) (tid : String) (body : TaskBody)
    (db : DB) : Except Err DB :=
  let assignedUserId := bodyAssignedUser body.assignedUser
  match lookupAssignedUser isValid assignedUserId db with
  | .error e => .error e
  | .ok userDoc =>
  let completed := parseBoolean body.completed false
  match parseDateValue body.deadline "deadline" with
  | .error e => .error e
  | .ok deadlineValue =>
    let task : Task :=
      { id := tid, name := body.name,
        description := body.description.getD "",
        deadline := deadlineValue, completed := completed,
        assignedUser := "", assignedUserName := "unassigned" }
    let step := match userDoc with
      | some u => assignTask task u db
      | none => (task, db)
    let db2 := insertTask step.1 step.2
    if step.1.assignedUser ≠ "" ∧ step.1.completed = false then
      .ok (addTaskToUser step.1.id step.1.assignedUser db2)
    else .ok db2

/-- `PUT /tasks/:id`: fetch, remember the previous owner, parse the payload
(full-replace semantics: `completed` defaults to `false`, `deadline` is
re-parsed from the payload), resolve the optional new owner, rewrite the
document through `assignTask`/`unassignTask`, save, detach from a changed
previous owner, then attach to or detach from the final owner according to
the final `completed` flag. -/
def taskPut (isValid : String → Bool) (tid : String) (body : TaskBody)
    (db : DB) : Except Err DB :=
  if ¬ isValid tid then .error (createError 400 "Invalid task id")
  else match db.findTask tid with
  | none => .error (createError 404 "Task not found")
  | some task =>
  let previousUserId := task.assignedUser
  let completed := parseBoolean body.completed false
  let assignedUserId := bodyAssignedUser body.assignedUser
  match parseDateValue body.deadline "deadline" with
  | .error e => .error e
  | .ok deadlineValue =>
  match lookupAssignedUser isValid assignedUserId db with
  | .error e => .error e
  | .ok userDoc =>
    let t1 : Task :=
      { task with
        name := body.name,
        description := body.description.getD "",
        deadline := deadlineValue, completed := completed }
    let step := match userDoc with
      | some u => assignTask t1 u db
      | none => unassignTask t1 db
    let db2 := saveTask step.1 step.2
    let newOwnerId := match userDoc with
      | some u => u.id
      | none => ""
    let db3 := if previousUserId ≠ "" ∧ previousUserId ≠ newOwnerId
      then removeTaskFromUser tid previousUserId db2 else db2
    if step.1.assignedUser ≠ "" then
      if step.1.completed then .ok (removeTaskFromUser tid step.1.assignedUser db3)
      else .ok (addTaskToUser tid step.1.assignedUser db3)
    else .ok db3

/-- `DELETE /tasks/:id`: fetch, delete the document, then detach it from
its owner's pending set when it had one. -/
def taskDelete (isValid : String → Bool) (tid : String) (db : DB) :
    Except Err DB :=
  if ¬ isValid tid then .error (createError 400 "Invalid task id")
  else match db.findTask tid with
  | none => .error (createError 404 "Task not found")
  | some task =>
    let db1 := deleteTaskDoc tid db
    if task.assignedUser ≠ "" then .ok (removeTaskFromUser tid task.assignedUser db1)
    else .ok db1

end Model

namespace Model

/-- Structural well-formedness of the store: document ids are unique per
collection and user ids (Mongo ObjectIds) are non-empty, so that the empty
string can serve as the "unassigned" sentinel. -/
def WF (db : DB) : Prop :=
  (db.users.map User.id).Nodup ∧ (db.tasks.map Task.id).Nodup ∧
    ∀ u ∈ db.users, u.id ≠ ""

/-- The referential-consistency invariant: a task id sits in a user's
pending list exactly when the task points at that user and is not
completed. -/
def Inv (db : DB) : Prop :=
  ∀ u ∈ db.users, ∀ t ∈ db.tasks,
    ((t.assignedUser = u.id ∧ t.completed = false) ↔ t.id ∈ u.pendingTasks)

/-- One completed mutation scenario.  Create steps carry the freshness of
the store-generated ObjectId (never equal to any live id, never a stale
reference). -/
inductive Step (isValid : String → Bool) : DB → DB → Prop where
  | ucreate (uid : String) (body : UserBody) (db db' : DB)
      (hne : uid ≠ "")
      (hfreshU : ∀ u ∈ db.users, u.id ≠ uid)
      (hfreshT : ∀ t ∈ db.tasks, t.assignedUser ≠ uid)
      (h : usersPost isValid uid body db = .ok db') : Step isValid db db'
  | uupdate (uid : String) (body : UserBody) (db db' : DB)
      (h : userPut isValid uid body db = .ok db') : Step isValid db db'
  | udelete (uid : String) (db db' : DB)
      (h : userDelete isValid uid db = .ok db') : Step isValid db db'
  | tcreate (tid : String) (body : TaskBody) (db db' : DB)
      (hfreshT : ∀ t ∈ db.tasks, t.id ≠ tid)
      (hfreshP : ∀ u ∈ db.users, tid ∉ u.pendingTasks)
      (h : tasksPost isValid tid body db = .ok db') : Step isValid db db'
  | tupdate (tid : String) (body : TaskBody) (db db' : DB)
      (h : taskPut isValid tid body db = .ok db') : Step isValid db db'
  | tdelete (tid : String) (db db' : DB)
      (h : taskDelete isValid tid db = .ok db') : Step isValid db db'

/-- A finite sequence of completed mutation scenarios. -/
inductive Steps (isValid : String → Bool) : DB → DB → Prop where
  | refl (db : DB) : Steps isValid db db
  | tail {db1 db2 db3 : DB} : Steps isValid db1 db2 → Step isValid db2 db3 →
      Steps isValid db1 db3

end Model

namespace Model

theorem find?_eq_some_of_nodup {α : Type} (f : α → String) (l : List α) (x : α)
    (hnd : (l.map f).Nodup) (hx : x ∈ l) :
    l.find? (fun y => decide (f y = f x)) = some x := by
  induction l with
  | nil => cases hx
  | cons a tl ih =>
    rw [List.map_cons, List.nodup_cons] at hnd
    rcases List.mem_cons.mp hx with rfl | hx'
    · simp [List.find?]
    · have hne : f a ≠ f x := by
        intro h
        exact hnd.1 (h ▸ List.mem_map_of_mem f hx')
      have hd : decide (f a = f x) = false := decide_eq_false hne
      simp only [List.find?, hd]
      exact ih hnd.2 hx'

theorem map_id_of_eq {α : Type} (l : List α) (f : α → α) (h : ∀ a ∈ l, f a = a) :
    l.map f = l := by
  induction l with
  | nil => rfl
  | cons a tl ih =>
    rw [List.map_cons, h a (List.mem_cons_self a tl), ih (fun b hb => h b (List.mem_cons_of_mem a hb))]

/-- The per-user effect of `removeTaskFromUser`. -/
def rmUser (taskId userId : String) (u : User) : User :=
  if userId ≠ "" ∧ u.id = userId then
    { u with pendingTasks := u.pendingTasks.filter (fun x => decide (x ≠ taskId)) }
  else u

theorem removeTaskFromUser_tasks (a b : String) (db : DB) :
    (removeTaskFromUser a b db).tasks = db.tasks := by
  unfold removeTaskFromUser
  by_cases h : b = "" <;> simp [h]

theorem removeTaskFromUser_users (a b : String) (db : DB) :
    (removeTaskFromUser a b db).users = db.users.map (rmUser a b) := by
  unfold removeTaskFromUser
  by_cases h : b = ""
  · simp only [h, if_pos rfl]
    exact (map_id_of_eq _ _ (fun u _ => by simp [rmUser])).symm
  · simp only [if_neg h]
    refine List.map_congr_left (fun u _ => ?_)
    by_cases h2 : u.id = b <;> simp [rmUser, h, h2]

/-- The per-user effect of `addTaskToUser`. -/
def adUser (taskId userId : String) (u : User) : User :=
  if userId ≠ "" ∧ u.id = userId then
    { u with pendingTasks :=
        if taskId ∈ u.pendingTasks then u.pendingTasks else u.pendingTasks ++ [taskId] }
  else u

theorem addTaskToUser_tasks (a b : String) (db : DB) :
    (addTaskToUser a b db).tasks = db.tasks := by
  unfold addTaskToUser
  by_cases h : b = "" <;> simp [h]

theorem addTaskToUser_users (a b : String) (db : DB) :
    (addTaskToUser a b db).users = db.users.map (adUser a b) := by
  unfold addTaskToUser
  by_cases h : b = ""
  · simp only [h, if_pos rfl]
    exact (map_id_of_eq _ _ (fun u _ => by simp [adUser])).symm
  · simp only [if_neg h]
    refine List.map_congr_left (fun u _ => ?_)
    by_cases h2 : u.id = b <;> simp [adUser, h, h2]

theorem saveTask_users (t : Task) (db : DB) : (saveTask t db).users = db.users := rfl

theorem saveTask_tasks (t : Task) (db : DB) :
    (saveTask t db).tasks = db.tasks.map (fun t0 => if t0.id = t.id then t else t0) := rfl

theorem saveUser_tasks (u : User) (db : DB) : (saveUser u db).tasks = db.tasks := rfl

theorem saveUser_users (u : User) (db : DB) :
    (saveUser u db).users = db.users.map (fun u0 => if u0.id = u.id then u else u0) := rfl

theorem clearOwner_id (t : Task) : (clearOwner t).id = t.id := rfl

theorem reassignTo_id (uid nm : String) (t : Task) : (reassignTo uid nm t).id = t.id := rfl

theorem rmUser_id (a b : String) (u : User) : (rmUser a b u).id = u.id := by
  unfold rmUser
  by_cases h : b ≠ "" ∧ u.id = b <;> simp [h]

theorem adUser_id (a b : String) (u : User) : (adUser a b u).id = u.id := by
  unfold adUser
  by_cases h : b ≠ "" ∧ u.id = b <;> simp [h]

end Model

namespace Model

/-- The per-user effect of one `syncOne` iteration. -/
def rmOne (uid : String) (t : Task) (v : User) : User :=
  if t.assignedUser ≠ "" ∧ t.assignedUser ≠ uid ∧ v.id = t.assignedUser then
    { v with pendingTasks := v.pendingTasks.filter (fun x => decide (x ≠ t.id)) }
  else v

theorem rmOne_id (uid : String) (t : Task) (v : User) : (rmOne uid t v).id = v.id := by
  unfold rmOne
  by_cases h : t.assignedUser ≠ "" ∧ t.assignedUser ≠ uid ∧ v.id = t.assignedUser <;> simp [h]

theorem syncOne_tasks (uid nm : String) (db : DB) (t : Task) :
    (syncOne uid nm db t).tasks =
      db.tasks.map (fun t0 => if t0.id = t.id then reassignTo uid nm t else t0) := by
  unfold syncOne
  by_cases hg : t.assignedUser ≠ "" ∧ t.assignedUser ≠ uid
  · simp only [if_pos hg, saveTask_tasks, removeTaskFromUser_tasks]
    rfl
  · simp only [if_neg hg, saveTask_tasks]
    rfl

theorem syncOne_users (uid nm : String) (db : DB) (t : Task) :
    (syncOne uid nm db t).users = db.users.map (rmOne uid t) := by
  unfold syncOne
  by_cases hg : t.assignedUser ≠ "" ∧ t.assignedUser ≠ uid
  · simp only [if_pos hg, saveTask_users, removeTaskFromUser_users]
    refine List.map_congr_left (fun v _ => ?_)
    by_cases h2 : v.id = t.assignedUser
    · rw [rmUser, if_pos ⟨hg.1, h2⟩, rmOne, if_pos ⟨hg.1, hg.2, h2⟩]
    · rw [rmUser, if_neg (fun hc => h2 hc.2), rmOne, if_neg (fun hc => h2 hc.2.2)]
  · simp only [if_neg hg, saveTask_users]
    exact (map_id_of_eq _ _ (fun v _ => by
      rw [rmOne, if_neg (fun hc => hg ⟨hc.1, hc.2.1⟩)])).symm

end Model

namespace Model

/-- The cumulative per-task effect of the "current" pass over snapshot `fd`. -/
def pass2Task (fd : List Task) (uid nm : String) (t0 : Task) : Task :=
  if fd.any (fun t => decide (t.id = t0.id)) then reassignTo uid nm t0 else t0

/-- The cumulative per-user effect of the "current" pass over snapshot `fd`. -/
def pass2User (fd : List Task) (uid : String) (v : User) : User :=
  if v.id = uid ∨ v.id = "" then v
  else { v with pendingTasks := v.pendingTasks.filter (fun x => ! fd.any (fun t => decide (t.id = x ∧ t.assignedUser = v.id))) }

theorem pass2Task_id (fd : List Task) (uid nm : String) (t0 : Task) :
    (pass2Task fd uid nm t0).id = t0.id := by
  unfold pass2Task
  by_cases h : fd.any (fun t => decide (t.id = t0.id)) <;> simp [h, reassignTo]

theorem pass2User_id (fd : List Task) (uid : String) (v : User) :
    (pass2User fd uid v).id = v.id := by
  unfold pass2User
  by_cases h : v.id = uid ∨ v.id = "" <;> simp [h]

theorem pass2Task_cons (uid nm : String) (t : Task) (rest : List Task) (t0 : Task)
    (hnd : t.id ∉ rest.map Task.id) (h : t0.id = t.id → t0 = t) :
    pass2Task rest uid nm (if t0.id = t.id then reassignTo uid nm t else t0) =
      pass2Task (t :: rest) uid nm t0 := by
  by_cases hc : t0.id = t.id
  · have ht0t : t0 = t := h hc
    have hrest : rest.any (fun t' => decide (t'.id = (reassignTo uid nm t).id)) = false := by
      rw [List.any_eq_false]
      intro t' ht'
      simp only [decide_eq_true_eq, reassignTo]
      intro hid
      exact hnd (hid ▸ List.mem_map_of_mem Task.id ht')
    have hhead : (t :: rest).any (fun t' => decide (t'.id = t0.id)) = true := by
      rw [List.any_cons]
      simp [hc]
    rw [if_pos hc]
    rw [pass2Task, hrest]
    rw [pass2Task, hhead]
    simp [ht0t]
  · have hcons : (t :: rest).any (fun t' => decide (t'.id = t0.id)) =
        rest.any (fun t' => decide (t'.id = t0.id)) := by
      rw [List.any_cons, decide_eq_false (fun hx => hc hx.symm), Bool.false_or]
    rw [if_neg hc]
    simp only [pass2Task]
    rw [hcons]

theorem pass2User_cons (uid : String) (t : Task) (rest : List Task) (v : User) :
    pass2User rest uid (rmOne uid t v) = pass2User (t :: rest) uid v := by
  by_cases hve : v.id = uid ∨ v.id = ""
  · have hrm : rmOne uid t v = v := by
      rw [rmOne, if_neg]
      rintro ⟨h1, h2, h3⟩
      rcases hve with hv1 | hv1
      · exact h2 (by rw [← h3]; exact hv1)
      · exact h1 (by rw [← h3]; exact hv1)
    rw [hrm, pass2User, if_pos hve, pass2User, if_pos hve]
  · by_cases hA : t.assignedUser = v.id
    · have hA1 : t.assignedUser ≠ "" := by
        rw [hA]
        exact (not_or.mp hve).2
      have hA2 : t.assignedUser ≠ uid := by
        rw [hA]
        exact (not_or.mp hve).1
      have hrm : rmOne uid t v =
          { v with pendingTasks := v.pendingTasks.filter (fun x => decide (x ≠ t.id)) } := by
        rw [rmOne, if_pos ⟨hA1, hA2, hA.symm⟩]
      rw [hrm]
      simp only [pass2User]
      rw [if_neg hve, if_neg hve]
      simp only [List.filter_filter]
      congr 1
      refine List.filter_congr (fun x _ => ?_)
      rw [List.any_cons]
      by_cases hx : t.id = x
      · simp [hx, hA]
      · have hx' : x ≠ t.id := fun h => hx h.symm
        simp [hx, hx', hA]
    · have hrm : rmOne uid t v = v := by
        rw [rmOne, if_neg]
        rintro ⟨_, _, h3⟩
        exact hA h3.symm
      rw [hrm]
      simp only [pass2User, if_neg hve]
      congr 1
      refine List.filter_congr (fun x _ => ?_)
      rw [List.any_cons]
      have hd : decide (t.id = x ∧ t.assignedUser = v.id) = false := by
        simp only [decide_eq_false_iff_not]
        rintro ⟨_, h2⟩
        exact hA h2
      rw [hd, Bool.false_or]

theorem foldl_syncOne_shape (uid nm : String) (fd : List Task) : ∀ (db : DB),
    (fd.map Task.id).Nodup →
    (∀ t ∈ fd, ∀ t0 ∈ db.tasks, t0.id = t.id → t0 = t) →
    (fd.foldl (syncOne uid nm) db).tasks = db.tasks.map (pass2Task fd uid nm) ∧
    (fd.foldl (syncOne uid nm) db).users = db.users.map (pass2User fd uid) := by
  induction fd with
  | nil =>
    intro db _ _
    refine ⟨?_, ?_⟩
    · rw [List.foldl_nil]
      exact (map_id_of_eq _ _ (fun t0 _ => by simp [pass2Task])).symm
    · rw [List.foldl_nil]
      exact (map_id_of_eq _ _ (fun v _ => by
        unfold pass2User
        by_cases h : v.id = uid ∨ v.id = "" <;> simp [h])).symm
  | cons t rest ih =>
    intro db hnd huniq
    rw [List.map_cons, List.nodup_cons] at hnd
    rw [List.foldl_cons]
    have htasksA : (syncOne uid nm db t).tasks =
        db.tasks.map (fun t0 => if t0.id = t.id then reassignTo uid nm t else t0) :=
      syncOne_tasks uid nm db t
    have husersA : (syncOne uid nm db t).users = db.users.map (rmOne uid t) :=
      syncOne_users uid nm db t
    have huniqA : ∀ t' ∈ rest, ∀ t0 ∈ (syncOne uid nm db t).tasks, t0.id = t'.id → t0 = t' := by
      intro t' ht' t0 ht0 hid
      rw [htasksA] at ht0
      rcases List.mem_map.mp ht0 with ⟨t00, ht00, rfl⟩
      by_cases hc : t00.id = t.id
      · exfalso
        rw [if_pos hc] at hid
        exact hnd.1 (hid ▸ List.mem_map_of_mem Task.id ht')
      · rw [if_neg hc] at hid ⊢
        exact huniq t' (List.mem_cons_of_mem t ht') t00 ht00 hid
    obtain ⟨ihT, ihU⟩ := ih (syncOne uid nm db t) hnd.2 huniqA
    refine ⟨?_, ?_⟩
    · rw [ihT, htasksA, List.map_map]
      refine List.map_congr_left (fun t0 ht0 => ?_)
      exact pass2Task_cons uid nm t rest t0 hnd.1
        (fun hc => huniq t (List.mem_cons_self t rest) t0 ht0 hc)
    · rw [ihU, husersA, List.map_map]
      refine List.map_congr_left (fun v _ => ?_)
      exact pass2User_cons uid t rest v

end Model

namespace Model

/-- The per-task effect of the "removed" pass. -/
def clearF (removed : List String) (uid : String) (t : Task) : Task :=
  if t.id ∈ removed ∧ t.assignedUser = uid then clearOwner t else t

theorem clearF_id (removed : List String) (uid : String) (t : Task) :
    (clearF removed uid t).id = t.id := by
  unfold clearF
  by_cases h : t.id ∈ removed ∧ t.assignedUser = uid <;> simp [h, clearOwner]

/-- The net per-task effect of a whole `syncUserPendingTasks` run. -/
def syncTaskF (u : User) (prev : List String) (t0 : Task) : Task :=
  if t0.id ∈ u.pendingTasks then reassignTo u.id u.name t0
  else if t0.id ∈ prev ∧ t0.assignedUser = u.id then clearOwner t0
  else t0

/-- The snapshot of tasks the "current" pass iterates over. -/
def syncFound (u : User) (db : DB) : List Task :=
  db.tasks.filter (fun t => decide (t.id ∈ u.pendingTasks))

theorem pass1_tasks (removed : List String) (uid : String) (db : DB) :
    (if removed = [] then db else clearRemoved removed uid db).tasks =
      db.tasks.map (clearF removed uid) := by
  by_cases h : removed = []
  · rw [if_pos h, h]
    exact (map_id_of_eq _ _ (fun t _ => by
      rw [clearF, if_neg]
      rintro ⟨h1, _⟩
      cases h1)).symm
  · rw [if_neg h]
    rfl

theorem pass1_users (removed : List String) (uid : String) (db : DB) :
    (if removed = [] then db else clearRemoved removed uid db).users = db.users := by
  by_cases h : removed = []
  · rw [if_pos h]
  · rw [if_neg h]
    rfl

theorem sync_shape (u : User) (prev : List String) (db : DB)
    (hT : (db.tasks.map Task.id).Nodup) :
    (syncUserPendingTasks u prev db).tasks = db.tasks.map (syncTaskF u prev) ∧
    (syncUserPendingTasks u prev db).users =
      db.users.map (pass2User (syncFound u db) u.id) := by
  have hremmem : ∀ x, x ∈ prev.filter (fun id => decide (id ∉ u.pendingTasks)) ↔
      x ∈ prev ∧ x ∉ u.pendingTasks := by
    intro x
    rw [List.mem_filter]
    simp
  have hstep : syncUserPendingTasks u prev db =
      (if u.pendingTasks = [] then
        (if prev.filter (fun id => decide (id ∉ u.pendingTasks)) = [] then db
         else clearRemoved (prev.filter (fun id => decide (id ∉ u.pendingTasks))) u.id db)
      else
        ((if prev.filter (fun id => decide (id ∉ u.pendingTasks)) = [] then db
          else clearRemoved (prev.filter (fun id => decide (id ∉ u.pendingTasks))) u.id db).tasks.filter
            (fun t => decide (t.id ∈ u.pendingTasks))).foldl (syncOne u.id u.name)
          (if prev.filter (fun id => decide (id ∉ u.pendingTasks)) = [] then db
           else clearRemoved (prev.filter (fun id => decide (id ∉ u.pendingTasks))) u.id db)) := rfl
  rw [hstep]
  have hT1 := pass1_tasks (prev.filter (fun id => decide (id ∉ u.pendingTasks))) u.id db
  have hU1 := pass1_users (prev.filter (fun id => decide (id ∉ u.pendingTasks))) u.id db
  by_cases hc : u.pendingTasks = []
  · rw [if_pos hc]
    refine ⟨?_, ?_⟩
    · rw [hT1]
      refine List.map_congr_left (fun t0 _ => ?_)
      have hnotin : t0.id ∉ u.pendingTasks := by
        rw [hc]
        exact List.not_mem_nil _
      rw [clearF, syncTaskF, if_neg hnotin]
      by_cases h2 : t0.id ∈ prev ∧ t0.assignedUser = u.id
      · have hcl : t0.id ∈ prev.filter (fun id => decide (id ∉ u.pendingTasks)) ∧
            t0.assignedUser = u.id := ⟨(hremmem t0.id).mpr ⟨h2.1, hnotin⟩, h2.2⟩
        rw [if_pos hcl, if_pos h2]
      · have hcl : ¬(t0.id ∈ prev.filter (fun id => decide (id ∉ u.pendingTasks)) ∧
            t0.assignedUser = u.id) := fun hh => h2 ⟨((hremmem t0.id).mp hh.1).1, hh.2⟩
        rw [if_neg hcl, if_neg h2]
    · rw [hU1]
      refine (map_id_of_eq _ _ (fun v _ => ?_)).symm
      by_cases hv : v.id = u.id ∨ v.id = ""
      · rw [pass2User, if_pos hv]
      · have hfd : syncFound u db = [] := by
          rw [syncFound, List.filter_eq_nil_iff]
          intro t _
          simp [hc]
        rw [pass2User, if_neg hv, hfd]
        simp
  · rw [if_neg hc]
    have hfound : ((if prev.filter (fun id => decide (id ∉ u.pendingTasks)) = [] then db
          else clearRemoved (prev.filter (fun id => decide (id ∉ u.pendingTasks))) u.id db).tasks.filter
            (fun t => decide (t.id ∈ u.pendingTasks))) = syncFound u db := by
      rw [hT1, List.filter_map]
      have hcong : db.tasks.filter ((fun t => decide (t.id ∈ u.pendingTasks)) ∘
          clearF (prev.filter (fun id => decide (id ∉ u.pendingTasks))) u.id) =
          db.tasks.filter (fun t => decide (t.id ∈ u.pendingTasks)) := by
        refine List.filter_congr (fun t _ => ?_)
        simp only [Function.comp_apply, clearF_id]
      rw [hcong, syncFound]
      refine map_id_of_eq _ _ (fun t ht => ?_)
      rw [clearF, if_neg]
      rintro ⟨h1, _⟩
      rcases (hremmem t.id).mp h1 with ⟨_, h3⟩
      have hmem := (List.mem_filter.mp ht).2
      simp only [decide_eq_true_eq] at hmem
      exact h3 hmem
    rw [hfound]
    have hfdsub : (syncFound u db).Sublist db.tasks := List.filter_sublist db.tasks
    have hfdnodup : ((syncFound u db).map Task.id).Nodup :=
      List.Nodup.sublist (hfdsub.map Task.id) hT
    have huniq : ∀ t ∈ syncFound u db,
        ∀ t0 ∈ (if prev.filter (fun id => decide (id ∉ u.pendingTasks)) = [] then db
          else clearRemoved (prev.filter (fun id => decide (id ∉ u.pendingTasks))) u.id db).tasks,
        t0.id = t.id → t0 = t := by
      intro t ht t0 ht0 hid
      have htdb : t ∈ db.tasks := hfdsub.subset ht
      rw [hT1] at ht0
      rcases List.mem_map.mp ht0 with ⟨t00, ht00, rfl⟩
      have h00 : t00.id = t.id := by
        rw [← clearF_id (prev.filter (fun id => decide (id ∉ u.pendingTasks))) u.id t00, hid]
      have ht00t : t00 = t := List.inj_on_of_nodup_map hT ht00 htdb h00
      subst ht00t
      rw [clearF, if_neg]
      rintro ⟨h1, _⟩
      rcases (hremmem t00.id).mp h1 with ⟨_, h3⟩
      have hmem := (List.mem_filter.mp ht).2
      simp only [decide_eq_true_eq] at hmem
      exact h3 hmem
    obtain ⟨hTf, hUf⟩ := foldl_syncOne_shape u.id u.name (syncFound u db) _ hfdnodup huniq
    refine ⟨?_, ?_⟩
    · rw [hTf, hT1, List.map_map]
      refine List.map_congr_left (fun t0 ht0 => ?_)
      simp only [Function.comp_apply]
      by_cases hin : t0.id ∈ u.pendingTasks
      · have hcl : clearF (prev.filter (fun id => decide (id ∉ u.pendingTasks))) u.id t0 = t0 := by
          rw [clearF, if_neg]
          rintro ⟨h1, _⟩
          exact ((hremmem t0.id).mp h1).2 hin
        have hany : (syncFound u db).any (fun t => decide (t.id = t0.id)) = true := by
          rw [List.any_eq_true]
          exact ⟨t0, List.mem_filter.mpr ⟨ht0, by simpa using hin⟩, by simp⟩
        rw [hcl, pass2Task, if_pos hany, syncTaskF, if_pos hin]
      · have hany : (syncFound u db).any (fun t => decide (t.id = t0.id)) = false := by
          rw [List.any_eq_false]
          intro t ht
          simp only [decide_eq_true_eq]
          intro hid
          have hmem := (List.mem_filter.mp ht).2
          simp only [decide_eq_true_eq] at hmem
          exact hin (hid ▸ hmem)
        rw [pass2Task]
        simp only [clearF_id]
        rw [hany]
        simp only [Bool.false_eq_true, if_false]
        rw [clearF, syncTaskF, if_neg hin]
        by_cases h2 : t0.id ∈ prev ∧ t0.assignedUser = u.id
        · have hcl2 : t0.id ∈ prev.filter (fun id => decide (id ∉ u.pendingTasks)) ∧
              t0.assignedUser = u.id := ⟨(hremmem t0.id).mpr ⟨h2.1, hin⟩, h2.2⟩
          rw [if_pos hcl2, if_pos h2]
        · have hcl2 : ¬(t0.id ∈ prev.filter (fun id => decide (id ∉ u.pendingTasks)) ∧
              t0.assignedUser = u.id) := fun hh => h2 ⟨((hremmem t0.id).mp hh.1).1, hh.2⟩
          rw [if_neg hcl2, if_neg h2]
    · rw [hUf, hU1]

end Model

namespace Model

theorem syncTaskF_id (u : User) (prev : List String) (t0 : Task) :
    (syncTaskF u prev t0).id = t0.id := by
  unfold syncTaskF
  by_cases h1 : t0.id ∈ u.pendingTasks
  · simp [h1, reassignTo]
  · by_cases h2 : t0.id ∈ prev ∧ t0.assignedUser = u.id <;> simp [h1, h2, clearOwner]

theorem findUser_some (db : DB) (uid : String) (u : User)
    (h : db.findUser uid = some u) : u ∈ db.users ∧ u.id = uid := by
  unfold DB.findUser at h
  refine ⟨List.mem_of_find?_eq_some h, ?_⟩
  have := List.find?_some h
  simpa using this

theorem findTask_some (db : DB) (tid : String) (t : Task)
    (h : db.findTask tid = some t) : t ∈ db.tasks ∧ t.id = tid := by
  unfold DB.findTask at h
  refine ⟨List.mem_of_find?_eq_some h, ?_⟩
  have := List.find?_some h
  simpa using this

theorem rmUser_pending_mem (a b : String) (v : User) (x : String) :
    x ∈ (rmUser a b v).pendingTasks ↔
      x ∈ v.pendingTasks ∧ ¬(b ≠ "" ∧ v.id = b ∧ x = a) := by
  unfold rmUser
  by_cases h : b ≠ "" ∧ v.id = b
  · rw [if_pos h]
    simp only [List.mem_filter, decide_eq_true_eq]
    constructor
    · rintro ⟨h1, h2⟩
      exact ⟨h1, fun hh => h2 hh.2.2⟩
    · rintro ⟨h1, h2⟩
      exact ⟨h1, fun hx => h2 ⟨h.1, h.2, hx⟩⟩
  · rw [if_neg h]
    constructor
    · intro h1
      exact ⟨h1, fun hh => h ⟨hh.1, hh.2.1⟩⟩
    · exact fun h1 => h1.1

theorem adUser_pending_mem (a b : String) (v : User) (x : String) :
    x ∈ (adUser a b v).pendingTasks ↔
      x ∈ v.pendingTasks ∨ (b ≠ "" ∧ v.id = b ∧ x = a) := by
  unfold adUser
  by_cases h : b ≠ "" ∧ v.id = b
  · rw [if_pos h]
    by_cases hmem : a ∈ v.pendingTasks
    · rw [if_pos hmem]
      constructor
      · exact fun h1 => Or.inl h1
      · rintro (h1 | h1)
        · exact h1
        · rw [h1.2.2]
          exact hmem
    · rw [if_neg hmem]
      rw [List.mem_append, List.mem_singleton]
      constructor
      · rintro (h1 | h1)
        · exact Or.inl h1
        · exact Or.inr ⟨h.1, h.2, h1⟩
      · rintro (h1 | h1)
        · exact Or.inl h1
        · exact Or.inr h1.2.2
  · rw [if_neg h]
    constructor
    · exact fun h1 => Or.inl h1
    · rintro (h1 | h1)
      · exact h1
      · exact absurd ⟨h1.1, h1.2.1⟩ h

theorem pass2User_pending_mem (fd : List Task) (uid : String) (v : User) (x : String)
    (hv1 : v.id ≠ uid) (hv2 : v.id ≠ "") :
    x ∈ (pass2User fd uid v).pendingTasks ↔
      x ∈ v.pendingTasks ∧
        fd.any (fun t => decide (t.id = x ∧ t.assignedUser = v.id)) = false := by
  rw [pass2User, if_neg (by rintro (h | h); exacts [hv1 h, hv2 h])]
  simp only [List.mem_filter, Bool.not_eq_true']

theorem syncFound_any_iff (u : User) (db : DB)
    (hT : (db.tasks.map Task.id).Nodup) (t0 : Task) (ht0 : t0 ∈ db.tasks) (vid : String) :
    ((syncFound u db).any (fun t => decide (t.id = t0.id ∧ t.assignedUser = vid)) = true) ↔
      (t0.id ∈ u.pendingTasks ∧ t0.assignedUser = vid) := by
  rw [List.any_eq_true]
  constructor
  · rintro ⟨t1, ht1, hdec⟩
    rw [decide_eq_true_eq] at hdec
    have ht1db : t1 ∈ db.tasks := (List.filter_sublist db.tasks).subset ht1
    have ht1t0 : t1 = t0 := List.inj_on_of_nodup_map hT ht1db ht0 hdec.1
    subst ht1t0
    have hmem := (List.mem_filter.mp ht1).2
    simp only [decide_eq_true_eq] at hmem
    exact ⟨hmem, hdec.2⟩
  · rintro ⟨hin, hassign⟩
    refine ⟨t0, List.mem_filter.mpr ⟨ht0, by simpa using hin⟩, by simp [hassign]⟩

end Model

namespace Model

theorem sync_preserves (u' : User) (prev : List String) (db : DB)
    (hU : (db.users.map User.id).Nodup)
    (hT : (db.tasks.map Task.id).Nodup)
    (hne : ∀ v ∈ db.users, v.id ≠ "")
    (hmem : u' ∈ db.users)
    (hothers : ∀ v ∈ db.users, v.id ≠ u'.id → ∀ t ∈ db.tasks,
       ((t.assignedUser = v.id ∧ t.completed = false) ↔ t.id ∈ v.pendingTasks))
    (hself : ∀ t ∈ db.tasks, t.assignedUser = u'.id → t.completed = false →
       t.id ∈ prev ∨ t.id ∈ u'.pendingTasks) :
    WF (syncUserPendingTasks u' prev db) ∧ Inv (syncUserPendingTasks u' prev db) := by
  obtain ⟨hTshape, hUshape⟩ := sync_shape u' prev db hT
  have huidne : u'.id ≠ "" := hne u' hmem
  refine ⟨⟨?_, ?_, ?_⟩, ?_⟩
  · rw [hUshape, List.map_map]
    have heq : db.users.map (User.id ∘ pass2User (syncFound u' db) u'.id) =
        db.users.map User.id :=
      List.map_congr_left (fun v _ => pass2User_id _ _ v)
    rw [heq]
    exact hU
  · rw [hTshape, List.map_map]
    have heq : db.tasks.map (Task.id ∘ syncTaskF u' prev) = db.tasks.map Task.id :=
      List.map_congr_left (fun t _ => syncTaskF_id u' prev t)
    rw [heq]
    exact hT
  · rw [hUshape]
    intro v hv
    rcases List.mem_map.mp hv with ⟨v0, hv0, rfl⟩
    rw [pass2User_id]
    exact hne v0 hv0
  · intro v hv t ht
    rw [hUshape] at hv
    rw [hTshape] at ht
    rcases List.mem_map.mp hv with ⟨v0, hv0, rfl⟩
    rcases List.mem_map.mp ht with ⟨t0, ht0, rfl⟩
    by_cases hvid : v0.id = u'.id
    · have hv0u : v0 = u' := List.inj_on_of_nodup_map hU hv0 hmem hvid
      have hp2 : pass2User (syncFound u' db) u'.id u' = u' := by
        rw [pass2User, if_pos (Or.inl rfl)]
      rw [hv0u, hp2, syncTaskF]
      by_cases hin : t0.id ∈ u'.pendingTasks
      · rw [if_pos hin]
        simp only [reassignTo]
        constructor
        · intro _
          exact hin
        · intro _
          trivial
      · rw [if_neg hin]
        by_cases h2 : t0.id ∈ prev ∧ t0.assignedUser = u'.id
        · rw [if_pos h2]
          simp only [clearOwner]
          constructor
          · rintro ⟨hx, _⟩
            exact absurd hx.symm huidne
          · intro hx
            exact absurd hx hin
        · rw [if_neg h2]
          constructor
          · rintro ⟨hx1, hx2⟩
            rcases hself t0 ht0 hx1 hx2 with hp | hp
            · exact absurd ⟨hp, hx1⟩ h2
            · exact absurd hp hin
          · intro hx
            exact absurd hx hin
    · have hv0ne : v0.id ≠ "" := hne v0 hv0
      have hiff := hothers v0 hv0 hvid t0 ht0
      have hanyiff := syncFound_any_iff u' db hT t0 ht0 v0.id
      rw [syncTaskF, pass2User_id]
      by_cases hin : t0.id ∈ u'.pendingTasks
      · rw [if_pos hin]
        simp only [reassignTo]
        constructor
        · rintro ⟨hx, _⟩
          exact absurd hx.symm hvid
        · intro hx
          rw [pass2User_pending_mem _ _ _ _ hvid hv0ne] at hx
          have hld := hiff.mpr hx.1
          have hany : (syncFound u' db).any
              (fun t => decide (t.id = t0.id ∧ t.assignedUser = v0.id)) = true :=
            hanyiff.mpr ⟨hin, hld.1⟩
          rw [hany] at hx
          cases hx.2
      · rw [if_neg hin]
        by_cases h2 : t0.id ∈ prev ∧ t0.assignedUser = u'.id
        · rw [if_pos h2]
          simp only [clearOwner]
          constructor
          · rintro ⟨hx, _⟩
            exact absurd hx.symm hv0ne
          · intro hx
            rw [pass2User_pending_mem _ _ _ _ hvid hv0ne] at hx
            have hld := hiff.mpr hx.1
            rw [h2.2] at hld
            exact absurd hld.1.symm hvid
        · rw [if_neg h2]
          rw [pass2User_pending_mem _ _ _ _ hvid hv0ne]
          have hany : (syncFound u' db).any
              (fun t => decide (t.id = t0.id ∧ t.assignedUser = v0.id)) = false := by
            cases hb : (syncFound u' db).any
                (fun t => decide (t.id = t0.id ∧ t.assignedUser = v0.id)) with
            | false => rfl
            | true => exact absurd (hanyiff.mp hb).1 hin
          rw [hany]
          constructor
          · intro hx
            exact ⟨hiff.mp hx, rfl⟩
          · rintro ⟨hx, _⟩
            exact hiff.mpr hx

end Model

namespace Model

theorem usersPost_preserves (isValid : String → Bool) (uid : String) (body : UserBody)
    (db db' : DB) (hWF : WF db) (hInv : Inv db)
    (hne : uid ≠ "") (hfreshU : ∀ u ∈ db.users, u.id ≠ uid)
    (hfreshT : ∀ t ∈ db.tasks, t.assignedUser ≠ uid)
    (h : usersPost isValid uid body db = .ok db') : WF db' ∧ Inv db' := by
  rw [usersPost] at h
  cases hn : normalizeIdArray isValid (pendingOrEmpty body.pendingTasks) "pendingTasks" with
  | error e =>
    rw [hn] at h
    exact Except.noConfusion h
  | ok ids =>
    simp only [hn] at h
    cases he : ensureTasksExist ids db with
    | error e =>
      simp only [he] at h
      exact Except.noConfusion h
    | ok u0 =>
      simp only [he] at h
      injection h with h
      subst h
      have huid : (User.mk uid body.name body.email ids).id = uid := rfl
      have hUapp : (((insertUser (User.mk uid body.name body.email ids) db).users).map
          User.id).Nodup := by
        show ((db.users ++ [User.mk uid body.name body.email ids]).map User.id).Nodup
        rw [List.map_append, List.nodup_append]
        refine ⟨hWF.1, List.nodup_singleton _, ?_⟩
        intro x hx hx2
        rcases List.mem_map.mp hx with ⟨v, hv, rfl⟩
        rw [List.map_singleton, List.mem_singleton] at hx2
        exact hfreshU v hv hx2
      refine sync_preserves _ [] _ hUapp hWF.2.1 ?_ ?_ ?_ ?_
      · intro v hv
        rcases List.mem_append.mp hv with hv1 | hv1
        · exact hWF.2.2 v hv1
        · rw [List.mem_singleton] at hv1
          rw [hv1]
          exact hne
      · exact List.mem_append_right _ (List.mem_singleton_self _)
      · intro v hv hvne t ht
        rcases List.mem_append.mp hv with hv1 | hv1
        · exact hInv v hv1 t ht
        · rw [List.mem_singleton] at hv1
          exact absurd (by rw [hv1]) hvne
      · intro t ht hassign _
        exact absurd hassign (hfreshT t ht)

theorem userPut_preserves (isValid : String → Bool) (uid : String) (body : UserBody)
    (db db' : DB) (hWF : WF db) (hInv : Inv db)
    (h : userPut isValid uid body db = .ok db') : WF db' ∧ Inv db' := by
  rw [userPut] at h
  by_cases hval : ¬ (isValid uid = true)
  · rw [if_pos hval] at h
    exact Except.noConfusion h
  · rw [if_neg hval] at h
    cases hf : db.findUser uid with
    | none =>
      simp only [hf] at h
      exact Except.noConfusion h
    | some user =>
      simp only [hf] at h
      cases hn : normalizeIdArray isValid (pendingOrEmpty body.pendingTasks) "pendingTasks" with
      | error e =>
        simp only [hn] at h
        exact Except.noConfusion h
      | ok ids =>
        simp only [hn] at h
        cases he : ensureTasksExist ids db with
        | error e =>
          simp only [he] at h
          exact Except.noConfusion h
        | ok u0 =>
          simp only [he] at h
          injection h with h
          subst h
          obtain ⟨huser, huserid⟩ := findUser_some db uid user hf
          have hidsave : ∀ v0 : User,
              ((fun u1 => if u1.id = (User.mk user.id body.name body.email ids).id
                then User.mk user.id body.name body.email ids else u1) v0).id = v0.id := by
            intro v0
            by_cases hc : v0.id = user.id
            · simp [hc]
            · simp [hc]
          have hUsave : (((saveUser (User.mk user.id body.name body.email ids) db).users).map
              User.id).Nodup := by
            rw [saveUser_users, List.map_map]
            have heq : db.users.map (User.id ∘ (fun u1 =>
                if u1.id = (User.mk user.id body.name body.email ids).id
                then User.mk user.id body.name body.email ids else u1)) =
                db.users.map User.id :=
              List.map_congr_left (fun v0 _ => hidsave v0)
            rw [heq]
            exact hWF.1
          refine sync_preserves _ _ _ hUsave hWF.2.1 ?_ ?_ ?_ ?_
          · rw [saveUser_users]
            intro v hv
            rcases List.mem_map.mp hv with ⟨v0, hv0, rfl⟩
            rw [hidsave v0]
            exact hWF.2.2 v0 hv0
          · rw [saveUser_users]
            refine List.mem_map.mpr ⟨user, huser, ?_⟩
            simp
          · rw [saveUser_users]
            intro v hv hvne t ht
            rcases List.mem_map.mp hv with ⟨v0, hv0, rfl⟩
            by_cases hc : v0.id = user.id
            · exfalso
              apply hvne
              rw [hidsave v0]
              exact hc
            · have hv0eq : (if v0.id = (User.mk user.id body.name body.email ids).id
                  then User.mk user.id body.name body.email ids else v0) = v0 := by
                simp [hc]
              rw [hv0eq]
              exact hInv v0 hv0 t ht
          · intro t ht hassign hcomp
            left
            have hiff := hInv user huser t ht
            exact hiff.mp ⟨hassign, hcomp⟩

end Model

namespace Model

theorem userDelete_preserves (isValid : String → Bool) (uid : String)
    (db db' : DB) (hWF : WF db) (hInv : Inv db)
    (h : userDelete isValid uid db = .ok db') : WF db' ∧ Inv db' := by
  rw [userDelete] at h
  by_cases hval : ¬ (isValid uid = true)
  · rw [if_pos hval] at h
    exact Except.noConfusion h
  · rw [if_neg hval] at h
    cases hf : db.findUser uid with
    | none =>
      simp only [hf] at h
      exact Except.noConfusion h
    | some user =>
      simp only [hf] at h
      injection h with h
      subst h
      have hTmap : ∀ t0 : Task,
          ((if t0.assignedUser = uid then clearOwner t0 else t0)).id = t0.id := by
        intro t0
        by_cases hc : t0.assignedUser = uid <;> simp [hc, clearOwner]
      refine ⟨⟨?_, ?_, ?_⟩, ?_⟩
      · show ((db.users.filter (fun v => decide (v.id ≠ uid))).map User.id).Nodup
        exact List.Nodup.sublist ((List.filter_sublist db.users).map User.id) hWF.1
      · show ((db.tasks.map (fun t0 => if t0.assignedUser = uid then clearOwner t0
          else t0)).map Task.id).Nodup
        rw [List.map_map]
        have heq : db.tasks.map (Task.id ∘ (fun t0 =>
            if t0.assignedUser = uid then clearOwner t0 else t0)) = db.tasks.map Task.id :=
          List.map_congr_left (fun t0 _ => hTmap t0)
        rw [heq]
        exact hWF.2.1
      · intro v hv
        have hv2 : v ∈ db.users := (List.filter_sublist db.users).subset hv
        exact hWF.2.2 v hv2
      · intro v hv t ht
        have hv2 : v ∈ db.users := (List.filter_sublist db.users).subset hv
        have hvne : v.id ≠ uid := by
          have := (List.mem_filter.mp hv).2
          simpa using this
        rcases List.mem_map.mp ht with ⟨t0, ht0, rfl⟩
        by_cases hc : t0.assignedUser = uid
        · rw [if_pos hc]
          simp only [clearOwner]
          constructor
          · rintro ⟨hx, _⟩
            exact absurd hx.symm (hWF.2.2 v hv2)
          · intro hx
            have := (hInv v hv2 t0 ht0).mpr hx
            rw [hc] at this
            exact absurd this.1.symm hvne
        · rw [if_neg hc]
          exact hInv v hv2 t0 ht0

theorem taskDelete_preserves (isValid : String → Bool) (tid : String)
    (db db' : DB) (hWF : WF db) (hInv : Inv db)
    (h : taskDelete isValid tid db = .ok db') : WF db' ∧ Inv db' := by
  rw [taskDelete] at h
  by_cases hval : ¬ (isValid tid = true)
  · rw [if_pos hval] at h
    exact Except.noConfusion h
  · rw [if_neg hval] at h
    cases hf : db.findTask tid with
    | none =>
      simp only [hf] at h
      exact Except.noConfusion h
    | some task =>
      simp only [hf] at h
      have hWFdel : WF (deleteTaskDoc tid db) := by
        refine ⟨hWF.1, ?_, hWF.2.2⟩
        exact List.Nodup.sublist ((List.filter_sublist db.tasks).map Task.id) hWF.2.1
      have hmemdel : ∀ t ∈ (deleteTaskDoc tid db).tasks, t ∈ db.tasks ∧ t.id ≠ tid := by
        intro t ht
        refine ⟨(List.filter_sublist db.tasks).subset ht, ?_⟩
        have := (List.mem_filter.mp ht).2
        simpa using this
      by_cases hc : task.assignedUser ≠ ""
      · rw [if_pos hc] at h
        injection h with h
        subst h
        refine ⟨⟨?_, ?_, ?_⟩, ?_⟩
        · rw [removeTaskFromUser_users, List.map_map]
          have heq : (deleteTaskDoc tid db).users.map
              (User.id ∘ rmUser tid task.assignedUser) =
              (deleteTaskDoc tid db).users.map User.id :=
            List.map_congr_left (fun v _ => rmUser_id _ _ v)
          rw [heq]
          exact hWFdel.1
        · rw [removeTaskFromUser_tasks]
          exact hWFdel.2.1
        · rw [removeTaskFromUser_users]
          intro v hv
          rcases List.mem_map.mp hv with ⟨v0, hv0, rfl⟩
          rw [rmUser_id]
          exact hWFdel.2.2 v0 hv0
        · intro v hv t ht
          rw [removeTaskFromUser_users] at hv
          rw [removeTaskFromUser_tasks] at ht
          rcases List.mem_map.mp hv with ⟨v0, hv0, rfl⟩
          obtain ⟨htdb, htne⟩ := hmemdel t ht
          rw [rmUser_id, rmUser_pending_mem]
          constructor
          · intro hx
            exact ⟨(hInv v0 hv0 t htdb).mp hx, fun hh => htne hh.2.2⟩
          · rintro ⟨hx, _⟩
            exact (hInv v0 hv0 t htdb).mpr hx
      · rw [if_neg hc] at h
        injection h with h
        subst h
        refine ⟨hWFdel, ?_⟩
        intro v hv t ht
        obtain ⟨htdb, _⟩ := hmemdel t ht
        exact hInv v hv t htdb

end Model

namespace Model

theorem lookupAssignedUser_none (isValid : String → Bool) (aid : String) (db : DB)
    (h : lookupAssignedUser isValid aid db = .ok none) : aid = "" := by
  rw [lookupAssignedUser] at h
  by_cases ha : aid = ""
  · exact ha
  · rw [if_neg ha] at h
    by_cases hv : ¬ (isValid aid = true)
    · rw [if_pos hv] at h
      exact Except.noConfusion h
    · rw [if_neg hv] at h
      cases hf : db.findUser aid with
      | none =>
        simp only [hf] at h
        exact Except.noConfusion h
      | some u =>
        simp only [hf] at h
        injection h with h
        exact Option.noConfusion h

theorem lookupAssignedUser_some (isValid : String → Bool) (aid : String) (db : DB)
    (B : User) (h : lookupAssignedUser isValid aid db = .ok (some B)) :
    B ∈ db.users ∧ B.id = aid ∧ aid ≠ "" := by
  rw [lookupAssignedUser] at h
  by_cases ha : aid = ""
  · rw [if_pos ha] at h
    injection h with h
    exact Option.noConfusion h
  · rw [if_neg ha] at h
    by_cases hv : ¬ (isValid aid = true)
    · rw [if_pos hv] at h
      exact Except.noConfusion h
    · rw [if_neg hv] at h
      cases hf : db.findUser aid with
      | none =>
        simp only [hf] at h
        exact Except.noConfusion h
      | some u =>
        simp only [hf] at h
        injection h with h
        injection h with h
        subst h
        obtain ⟨hm, hi⟩ := findUser_some db aid u hf
        exact ⟨hm, hi, ha⟩

end Model

namespace Model

theorem tasksPost_preserves (isValid : String → Bool) (tid : String) (body : TaskBody)
    (db db' : DB) (hWF : WF db) (hInv : Inv db)
    (hfreshT : ∀ t ∈ db.tasks, t.id ≠ tid)
    (hfreshP : ∀ u ∈ db.users, tid ∉ u.pendingTasks)
    (h : tasksPost isValid tid body db = .ok db') : WF db' ∧ Inv db' := by
  have hTapp : ∀ t1 : Task, t1.id = tid →
      ((db.tasks ++ [t1]).map Task.id).Nodup := by
    intro t1 ht1
    rw [List.map_append, List.nodup_append]
    refine ⟨hWF.2.1, List.nodup_singleton _, ?_⟩
    intro x hx hx2
    rcases List.mem_map.mp hx with ⟨t, ht, rfl⟩
    rw [List.map_singleton, List.mem_singleton, ht1] at hx2
    exact hfreshT t ht hx2
  rw [tasksPost] at h
  cases hlu : lookupAssignedUser isValid (bodyAssignedUser body.assignedUser) db with
  | error e =>
    simp only [hlu] at h
    exact Except.noConfusion h
  | ok userDoc =>
    simp only [hlu] at h
    cases hdl : parseDateValue body.deadline "deadline" with
    | error e =>
      simp only [hdl] at h
      exact Except.noConfusion h
    | ok deadlineValue =>
      simp only [hdl] at h
      cases userDoc with
      | none =>
        simp only at h
        split at h
        · next hcond =>
            exact absurd rfl hcond.1
        · next hcond =>
            injection h with h
            subst h
            refine ⟨⟨hWF.1, hTapp _ rfl, hWF.2.2⟩, ?_⟩
            intro v hv t ht
            rcases List.mem_append.mp ht with ht1 | ht1
            · exact hInv v hv t ht1
            · rw [List.mem_singleton] at ht1
              subst ht1
              simp only
              constructor
              · rintro ⟨hx, _⟩
                exact absurd hx.symm (hWF.2.2 v hv)
              · intro hx
                exact absurd hx (hfreshP v hv)
      | some B =>
        obtain ⟨hBmem, hBid, hBne⟩ :=
          lookupAssignedUser_some isValid (bodyAssignedUser body.assignedUser) db B hlu
        have hBidne : B.id ≠ "" := by
          rw [hBid]
          exact hBne
        simp only [assignTask] at h
        split at h
        · next hcond =>
            -- attach branch: owner non-empty, completed false
            split at h
            · next hinner =>
                exact absurd rfl hinner.1
            · next hinner =>
                injection h with h
                subst h
                have hcv : parseBoolean body.completed false = false := hcond.2
                refine ⟨⟨?_, ?_, ?_⟩, ?_⟩
                · rw [addTaskToUser_users, List.map_map]
                  have heq : db.users.map (User.id ∘ adUser tid B.id) =
                      db.users.map User.id :=
                    List.map_congr_left (fun v _ => adUser_id _ _ v)
                  show (db.users.map (User.id ∘ adUser tid B.id)).Nodup
                  rw [heq]
                  exact hWF.1
                · rw [addTaskToUser_tasks]
                  exact hTapp _ rfl
                · rw [addTaskToUser_users]
                  intro v hv
                  rcases List.mem_map.mp hv with ⟨v0, hv0, rfl⟩
                  rw [adUser_id]
                  exact hWF.2.2 v0 hv0
                · intro v hv t ht
                  rw [addTaskToUser_users] at hv
                  rw [addTaskToUser_tasks] at ht
                  rcases List.mem_map.mp hv with ⟨v0, hv0, rfl⟩
                  rw [adUser_id]
                  rcases List.mem_append.mp ht with ht1 | ht1
                  · have htne : t.id ≠ tid := hfreshT t ht1
                    rw [adUser_pending_mem]
                    constructor
                    · intro hx
                      exact Or.inl ((hInv v0 hv0 t ht1).mp hx)
                    · rintro (hx | hx)
                      · exact (hInv v0 hv0 t ht1).mpr hx
                      · exact absurd hx.2.2 htne
                  · rw [List.mem_singleton] at ht1
                    subst ht1
                    simp only [hcv]
                    rw [adUser_pending_mem]
                    constructor
                    · rintro ⟨hx, _⟩
                      exact Or.inr ⟨hBidne, hx.symm, rfl⟩
                    · rintro (hx | hx)
                      · exact absurd hx (hfreshP v0 hv0)
                      · exact ⟨hx.2.1.symm, trivial⟩
        · next hcond =>
            -- insert-only branch: completed true (owner is non-empty)
            have hcv : parseBoolean body.completed false = true := by
              cases hb : parseBoolean body.completed false with
              | false => exact absurd ⟨hBidne, hb⟩ hcond
              | true => rfl
            split at h
            · next hinner =>
                exact absurd rfl hinner.1
            · next hinner =>
                injection h with h
                subst h
                refine ⟨⟨hWF.1, hTapp _ rfl, hWF.2.2⟩, ?_⟩
                intro v hv t ht
                rcases List.mem_append.mp ht with ht1 | ht1
                · exact hInv v hv t ht1
                · rw [List.mem_singleton] at ht1
                  subst ht1
                  simp only [hcv]
                  constructor
                  · rintro ⟨_, hx⟩
                    exact Bool.noConfusion hx
                  · intro hx
                    exact absurd hx (hfreshP v hv)

end Model

namespace Model

/-- Common invariant-preservation core for `PUT /tasks/:id`: the stored task
is replaced by `t2` and every user's pending set is rewritten by `F`, which
removes the task's id under condition `P` and guarantees it present under
condition `Q`. -/
theorem replaceTask_preserves (db db2 : DB) (hWF : WF db) (hInv : Inv db)
    (task : Task) (htask : task ∈ db.tasks)
    (t2 : Task) (ht2id : t2.id = task.id)
    (F : User → User) (P Q : User → Prop)
    (husers : db2.users = db.users.map F)
    (htasks : db2.tasks = db.tasks.map (fun t0 => if t0.id = t2.id then t2 else t0))
    (hFid : ∀ v : User, (F v).id = v.id)
    (hFmem : ∀ v0 ∈ db.users, ∀ x : String,
      (x ∈ (F v0).pendingTasks ↔
        (x ∈ v0.pendingTasks ∧ ¬(x = task.id ∧ P v0)) ∨ (x = task.id ∧ Q v0)))
    (hLHS : ∀ v0 ∈ db.users, ((t2.assignedUser = v0.id ∧ t2.completed = false) ↔ Q v0))
    (hPQ : ∀ v0 ∈ db.users, task.id ∈ v0.pendingTasks → ¬ P v0 → Q v0) :
    WF db2 ∧ Inv db2 := by
  have hGid : ∀ t0 : Task, ((fun t0 => if t0.id = t2.id then t2 else t0) t0).id = t0.id := by
    intro t0
    by_cases hcx : t0.id = t2.id
    · simp [hcx]
    · simp [hcx]
  refine ⟨⟨?_, ?_, ?_⟩, ?_⟩
  · rw [husers, List.map_map]
    have heq : db.users.map (User.id ∘ F) = db.users.map User.id :=
      List.map_congr_left (fun v _ => hFid v)
    rw [heq]
    exact hWF.1
  · rw [htasks, List.map_map]
    have heq : db.tasks.map (Task.id ∘ fun t0 => if t0.id = t2.id then t2 else t0) =
        db.tasks.map Task.id :=
      List.map_congr_left (fun t0 _ => hGid t0)
    rw [heq]
    exact hWF.2.1
  · rw [husers]
    intro v hv
    rcases List.mem_map.mp hv with ⟨v0, hv0, rfl⟩
    rw [hFid]
    exact hWF.2.2 v0 hv0
  · intro v hv t ht
    rw [husers] at hv
    rw [htasks] at ht
    rcases List.mem_map.mp hv with ⟨v0, hv0, rfl⟩
    rcases List.mem_map.mp ht with ⟨t0, ht0, rfl⟩
    rw [hFid]
    by_cases hcx : t0.id = t2.id
    · rw [if_pos hcx, hLHS v0 hv0, ht2id, hFmem v0 hv0 task.id]
      constructor
      · intro hq
        exact Or.inr ⟨rfl, hq⟩
      · rintro (⟨hm, hnp⟩ | ⟨_, hq⟩)
        · exact hPQ v0 hv0 hm (fun hp => hnp ⟨rfl, hp⟩)
        · exact hq
    · rw [if_neg hcx, hFmem v0 hv0 t0.id]
      have hne0 : ¬(t0.id = task.id) := by
        rw [← ht2id]
        exact hcx
      constructor
      · intro hL
        exact Or.inl ⟨(hInv v0 hv0 t0 ht0).mp hL, fun hp => hne0 hp.1⟩
      · rintro (⟨hm, _⟩ | ⟨he, _⟩)
        · exact (hInv v0 hv0 t0 ht0).mpr hm
        · exact absurd he hne0

end Model

namespace Model

set_option maxHeartbeats 1600000 in
theorem taskPut_preserves (isValid : String → Bool) (tid : String) (body : TaskBody)
    (db db' : DB) (hWF : WF db) (hInv : Inv db)
    (h : taskPut isValid tid body db = .ok db') : WF db' ∧ Inv db' := by
  rw [taskPut] at h
  by_cases hval : ¬ (isValid tid = true)
  · rw [if_pos hval] at h
    exact Except.noConfusion h
  · rw [if_neg hval] at h
    cases hf : db.findTask tid with
    | none =>
      simp only [hf] at h
      exact Except.noConfusion h
    | some task =>
      simp only [hf] at h
      obtain ⟨htask, htid⟩ := findTask_some db tid task hf
      cases hdl : parseDateValue body.deadline "deadline" with
      | error e =>
        simp only [hdl] at h
        exact Except.noConfusion h
      | ok deadlineValue =>
        simp only [hdl] at h
        cases hlu : lookupAssignedUser isValid (bodyAssignedUser body.assignedUser) db with
        | error e =>
          simp only [hlu] at h
          exact Except.noConfusion h
        | ok userDoc =>
          simp only [hlu] at h
          cases userDoc with
          | some B =>
            obtain ⟨hBmem, hBid, hBne⟩ :=
              lookupAssignedUser_some isValid (bodyAssignedUser body.assignedUser) db B hlu
            have hBidne : B.id ≠ "" := by
              rw [hBid]
              exact hBne
            simp only [assignTask] at h
            rw [if_pos hBidne] at h
            by_cases hg : task.assignedUser ≠ "" ∧ task.assignedUser ≠ B.id
            · simp only [if_pos hg] at h
              by_cases hc : parseBoolean body.completed false = true
              · rw [if_pos hc] at h
                injection h with h
                subst h
                generalize hT2 : (Task.mk task.id body.name (body.description.getD "")
                  deadlineValue (parseBoolean body.completed false) B.id B.name) = t2
                have ht2id : t2.id = task.id := by rw [← hT2]
                have ht2a : t2.assignedUser = B.id := by rw [← hT2]
                have ht2c : t2.completed = parseBoolean body.completed false := by rw [← hT2]
                refine replaceTask_preserves db _ hWF hInv task htask t2 ht2id
                  (rmUser tid B.id ∘ (rmUser tid task.assignedUser ∘
                    rmUser task.id task.assignedUser))
                  (fun v => v.id = task.assignedUser ∨ v.id = B.id) (fun _ => False)
                  ?_ ?_ ?_ ?_ ?_ ?_
                · rw [removeTaskFromUser_users, removeTaskFromUser_users, saveTask_users,
                    removeTaskFromUser_users, List.map_map, List.map_map]
                  rfl
                · rw [removeTaskFromUser_tasks, removeTaskFromUser_tasks, saveTask_tasks,
                    removeTaskFromUser_tasks]
                · intro v
                  simp only [Function.comp_apply, rmUser_id]
                · intro v0 hv0 x
                  simp only [Function.comp_apply, rmUser_pending_mem, rmUser_id]
                  rw [htid]
                  have hg1 := hg.1
                  tauto
                · intro v0 hv0
                  rw [ht2a, ht2c, hc]
                  constructor
                  · rintro ⟨_, hx⟩
                    exact Bool.noConfusion hx
                  · intro hx
                    exact hx.elim
                · intro v0 hv0 hmem hnp
                  exact absurd (Or.inl ((hInv v0 hv0 task htask).mpr hmem).1.symm) hnp
              · have hcf : parseBoolean body.completed false = false := by
                  cases hb : parseBoolean body.completed false with
                  | false => rfl
                  | true => exact absurd hb hc
                rw [if_neg hc] at h
                injection h with h
                subst h
                generalize hT2 : (Task.mk task.id body.name (body.description.getD "")
                  deadlineValue (parseBoolean body.completed false) B.id B.name) = t2
                have ht2id : t2.id = task.id := by rw [← hT2]
                have ht2a : t2.assignedUser = B.id := by rw [← hT2]
                have ht2c : t2.completed = parseBoolean body.completed false := by rw [← hT2]
                refine replaceTask_preserves db _ hWF hInv task htask t2 ht2id
                  (adUser tid B.id ∘ (rmUser tid task.assignedUser ∘
                    rmUser task.id task.assignedUser))
                  (fun v => v.id = task.assignedUser) (fun v => v.id = B.id)
                  ?_ ?_ ?_ ?_ ?_ ?_
                · rw [addTaskToUser_users, removeTaskFromUser_users, saveTask_users,
                    removeTaskFromUser_users, List.map_map, List.map_map]
                  rfl
                · rw [addTaskToUser_tasks, removeTaskFromUser_tasks, saveTask_tasks,
                    removeTaskFromUser_tasks]
                · intro v
                  simp only [Function.comp_apply, adUser_id, rmUser_id]
                · intro v0 hv0 x
                  simp only [Function.comp_apply, adUser_pending_mem, rmUser_pending_mem,
                    rmUser_id]
                  rw [htid]
                  have hg1 := hg.1
                  have hb1 := hBidne
                  tauto
                · intro v0 hv0
                  rw [ht2a, ht2c, hcf]
                  constructor
                  · rintro ⟨h1, _⟩
                    exact h1.symm
                  · intro h1
                    exact ⟨h1.symm, rfl⟩
                · intro v0 hv0 hmem hnp
                  exact absurd ((hInv v0 hv0 task htask).mpr hmem).1.symm hnp
            · simp only [if_neg hg] at h
              have hRor : task.assignedUser = "" ∨ task.assignedUser = B.id := by
                by_cases hr1 : task.assignedUser = ""
                · exact Or.inl hr1
                · by_cases hr2 : task.assignedUser = B.id
                  · exact Or.inr hr2
                  · exact absurd ⟨hr1, hr2⟩ hg
              by_cases hc : parseBoolean body.completed false = true
              · rw [if_pos hc] at h
                injection h with h
                subst h
                generalize hT2 : (Task.mk task.id body.name (body.description.getD "")
                  deadlineValue (parseBoolean body.completed false) B.id B.name) = t2
                have ht2id : t2.id = task.id := by rw [← hT2]
                have ht2a : t2.assignedUser = B.id := by rw [← hT2]
                have ht2c : t2.completed = parseBoolean body.completed false := by rw [← hT2]
                refine replaceTask_preserves db _ hWF hInv task htask t2 ht2id
                  (rmUser tid B.id) (fun v => v.id = B.id) (fun _ => False)
                  ?_ ?_ ?_ ?_ ?_ ?_
                · rw [removeTaskFromUser_users, saveTask_users]
                · rw [removeTaskFromUser_tasks, saveTask_tasks]
                · intro v
                  simp only [rmUser_id]
                · intro v0 hv0 x
                  simp only [rmUser_pending_mem]
                  rw [htid]
                  have hb1 := hBidne
                  tauto
                · intro v0 hv0
                  rw [ht2a, ht2c, hc]
                  constructor
                  · rintro ⟨_, hx⟩
                    exact Bool.noConfusion hx
                  · intro hx
                    exact hx.elim
                · intro v0 hv0 hmem hnp
                  have hx := ((hInv v0 hv0 task htask).mpr hmem).1
                  rcases hRor with hr | hr
                  · exact absurd (hr ▸ hx).symm (hWF.2.2 v0 hv0)
                  · exact absurd (hr ▸ hx).symm hnp
              · have hcf : parseBoolean body.completed false = false := by
                  cases hb : parseBoolean body.completed false with
                  | false => rfl
                  | true => exact absurd hb hc
                rw [if_neg hc] at h
                injection h with h
                subst h
                generalize hT2 : (Task.mk task.id body.name (body.description.getD "")
                  deadlineValue (parseBoolean body.completed false) B.id B.name) = t2
                have ht2id : t2.id = task.id := by rw [← hT2]
                have ht2a : t2.assignedUser = B.id := by rw [← hT2]
                have ht2c : t2.completed = parseBoolean body.completed false := by rw [← hT2]
                refine replaceTask_preserves db _ hWF hInv task htask t2 ht2id
                  (adUser tid B.id) (fun _ => False) (fun v => v.id = B.id)
                  ?_ ?_ ?_ ?_ ?_ ?_
                · rw [addTaskToUser_users, saveTask_users]
                · rw [addTaskToUser_tasks, saveTask_tasks]
                · intro v
                  simp only [adUser_id]
                · intro v0 hv0 x
                  simp only [adUser_pending_mem]
                  rw [htid]
                  have hb1 := hBidne
                  tauto
                · intro v0 hv0
                  rw [ht2a, ht2c, hcf]
                  constructor
                  · rintro ⟨h1, _⟩
                    exact h1.symm
                  · intro h1
                    exact ⟨h1.symm, rfl⟩
                · intro v0 hv0 hmem _
                  have hx := ((hInv v0 hv0 task htask).mpr hmem).1
                  rcases hRor with hr | hr
                  · exact absurd (hr ▸ hx).symm (hWF.2.2 v0 hv0)
                  · rw [← hr]
                    exact hx.symm
          | none =>
            have haid : bodyAssignedUser body.assignedUser = "" :=
              lookupAssignedUser_none isValid (bodyAssignedUser body.assignedUser) db hlu
            simp only [unassignTask, clearOwner] at h
            have houter : ¬(("" : String) ≠ "") := fun hh => hh rfl
            rw [if_neg houter] at h
            by_cases hgu : task.assignedUser ≠ ""
            · rw [if_pos hgu] at h
              have hgg : task.assignedUser ≠ "" ∧ task.assignedUser ≠ "" := ⟨hgu, hgu⟩
              rw [if_pos hgg] at h
              injection h with h
              subst h
              generalize hT2 : (Task.mk task.id body.name (body.description.getD "")
                deadlineValue (parseBoolean body.completed false) "" "unassigned") = t2
              have ht2id : t2.id = task.id := by rw [← hT2]
              have ht2a : t2.assignedUser = "" := by rw [← hT2]
              refine replaceTask_preserves db _ hWF hInv task htask t2 ht2id
                (rmUser tid task.assignedUser ∘ rmUser task.id task.assignedUser)
                (fun v => v.id = task.assignedUser) (fun _ => False)
                ?_ ?_ ?_ ?_ ?_ ?_
              · rw [removeTaskFromUser_users, saveTask_users, removeTaskFromUser_users,
                  List.map_map]
              · rw [removeTaskFromUser_tasks, saveTask_tasks, removeTaskFromUser_tasks]
              · intro v
                simp only [Function.comp_apply, rmUser_id]
              · intro v0 hv0 x
                simp only [Function.comp_apply, rmUser_pending_mem, rmUser_id]
                rw [htid]
                have hg1 := hgu
                tauto
              · intro v0 hv0
                rw [ht2a]
                constructor
                · rintro ⟨h1, _⟩
                  exact absurd h1.symm (hWF.2.2 v0 hv0)
                · intro hx
                  exact hx.elim
              · intro v0 hv0 hmem hnp
                exact absurd ((hInv v0 hv0 task htask).mpr hmem).1.symm hnp
            · rw [if_neg hgu] at h
              have hgg : ¬(task.assignedUser ≠ "" ∧ task.assignedUser ≠ "") :=
                fun hh => hgu hh.1
              rw [if_neg hgg] at h
              injection h with h
              subst h
              have hR : task.assignedUser = "" := by
                by_cases hr : task.assignedUser = ""
                · exact hr
                · exact absurd hr hgu
              generalize hT2 : (Task.mk task.id body.name (body.description.getD "")
                deadlineValue (parseBoolean body.completed false) "" "unassigned") = t2
              have ht2id : t2.id = task.id := by rw [← hT2]
              have ht2a : t2.assignedUser = "" := by rw [← hT2]
              refine replaceTask_preserves db _ hWF hInv task htask t2 ht2id
                (fun v => v) (fun _ => False) (fun _ => False)
                ?_ ?_ ?_ ?_ ?_ ?_
              · rw [saveTask_users]
                exact (map_id_of_eq _ _ (fun v _ => rfl)).symm
              · rw [saveTask_tasks]
              · intro v
                rfl
              · intro v0 hv0 x
                simp only
                tauto
              · intro v0 hv0
                rw [ht2a]
                constructor
                · rintro ⟨h1, _⟩
                  exact absurd h1.symm (hWF.2.2 v0 hv0)
                · intro hx
                  exact hx.elim
              · intro v0 hv0 hmem _
                have hx := ((hInv v0 hv0 task htask).mpr hmem).1
                rw [hR] at hx
                exact absurd hx.symm (hWF.2.2 v0 hv0)

end Model

namespace Model

theorem step_preserves (isValid : String → Bool) (db db' : DB)
    (hWF : WF db) (hInv : Inv db) (hs : Step isValid db db') : WF db' ∧ Inv db' := by
  cases hs with
  | ucreate uid body _ _ hne hfreshU hfreshT h =>
    exact usersPost_preserves isValid uid body db db' hWF hInv hne hfreshU hfreshT h
  | uupdate uid body _ _ h =>
    exact userPut_preserves isValid uid body db db' hWF hInv h
  | udelete uid _ _ h =>
    exact userDelete_preserves isValid uid db db' hWF hInv h
  | tcreate tid body _ _ hfreshT hfreshP h =>
    exact tasksPost_preserves isValid tid body db db' hWF hInv hfreshT hfreshP h
  | tupdate tid body _ _ h =>
    exact taskPut_preserves isValid tid body db db' hWF hInv h
  | tdelete tid _ _ h =>
    exact taskDelete_preserves isValid tid db db' hWF hInv h

theorem steps_preserve (isValid : String → Bool) (db db' : DB)
    (hWF : WF db) (hInv : Inv db) (hs : Steps isValid db db') : WF db' ∧ Inv db' := by
  induction hs with
  | refl => exact ⟨hWF, hInv⟩
  | tail _ hstep ih => exact step_preserves _ _ _ ih.1 ih.2 hstep

end Model

/-- C1: Referential-consistency invariant.  Starting from any well-formed
store satisfying the invariant, after any sequence of completed mutation
scenarios (Task create/update/delete, User create/update/delete with
pendingTasks resync): for every User `u` and Task `t`,
`t.assignedUser = u.id ∧ ¬t.completed ↔ t.id ∈ u.pendingTasks`; moreover
every Task with empty `assignedUser` or `completed = true` appears in no
User's `pendingTasks`. -/
theorem referential_consistency_after_steps (isValid : String → Bool)
    (db db' : Model.DB) (hWF : Model.WF db) (hInv : Model.Inv db)
    (hs : Model.Steps isValid db db') :
    (∀ u ∈ db'.users, ∀ t ∈ db'.tasks,
      ((t.assignedUser = u.id ∧ t.completed = false) ↔ t.id ∈ u.pendingTasks)) ∧
    (∀ u ∈ db'.users, ∀ t ∈ db'.tasks,
      (t.assignedUser = "" ∨ t.completed = true) → t.id ∉ u.pendingTasks) := by
  obtain ⟨hWF', hInv'⟩ := Model.steps_preserve isValid db db' hWF hInv hs
  refine ⟨hInv', ?_⟩
  intro u hu t ht hdisj hmem
  have hx := (hInv' u hu t ht).mpr hmem
  rcases hdisj with h1 | h1
  · have hx1 := hx.1
    rw [h1] at hx1
    exact hWF'.2.2 u hu hx1.symm
  · rw [hx.2] at h1
    exact Bool.noConfusion h1

/-- Witness for C1: a concrete run (creating one user from the empty store)
satisfying all hypotheses. -/
theorem referential_consistency_after_steps_witness :
    (∀ u ∈ (Model.DB.mk [Model.User.mk "u1" "n" "e" []] []).users,
      ∀ t ∈ (Model.DB.mk [Model.User.mk "u1" "n" "e" []] []).tasks,
      ((t.assignedUser = u.id ∧ t.completed = false) ↔ t.id ∈ u.pendingTasks)) ∧
    (∀ u ∈ (Model.DB.mk [Model.User.mk "u1" "n" "e" []] []).users,
      ∀ t ∈ (Model.DB.mk [Model.User.mk "u1" "n" "e" []] []).tasks,
      (t.assignedUser = "" ∨ t.completed = true) → t.id ∉ u.pendingTasks) :=
  referential_consistency_after_steps (fun _ => true) (Model.DB.mk [] [])
    (Model.DB.mk [Model.User.mk "u1" "n" "e" []] [])
    (by refine ⟨List.nodup_nil, List.nodup_nil, ?_⟩; intro u hu; cases hu)
    (by intro u hu; cases hu)
    (Model.Steps.tail (Model.Steps.refl _)
      (Model.Step.ucreate "u1" (Model.UserBody.mk "n" "e" (RawIds.list [])) _ _
        (by decide)
        (by intro u hu; cases hu)
        (by intro t ht; cases ht)
        rfl))

/-- C6: User-driven resync, removed pass.  For a task whose id was in the
previous pending list but is not in the new one: if it still points at this
user it is cleared to unassigned (`assignedUser = ""`,
`assignedUserName = "unassigned"`, no reassignment to anyone else); if it
meanwhile points at a different user, its document is left entirely
unchanged. -/
theorem syncUserPendingTasks_removed_pass (u : Model.User) (prev : List String)
    (db : Model.DB) (hT : (db.tasks.map Model.Task.id).Nodup)
    (t : Model.Task) (ht : t ∈ db.tasks)
    (hprev : t.id ∈ prev) (hcur : t.id ∉ u.pendingTasks) :
    (t.assignedUser = u.id →
      (Model.syncUserPendingTasks u prev db).tasks.find?
        (fun t0 => decide (t0.id = t.id)) = some (Model.clearOwner t)) ∧
    (t.assignedUser ≠ u.id →
      (Model.syncUserPendingTasks u prev db).tasks.find?
        (fun t0 => decide (t0.id = t.id)) = some t) := by
  have hTshape := (Model.sync_shape u prev db hT).1
  have hnd2 : ((db.tasks.map (Model.syncTaskF u prev)).map Model.Task.id).Nodup := by
    rw [List.map_map]
    have heq : db.tasks.map (Model.Task.id ∘ Model.syncTaskF u prev) =
        db.tasks.map Model.Task.id :=
      List.map_congr_left (fun t0 _ => Model.syncTaskF_id u prev t0)
    rw [heq]
    exact hT
  have hfind := Model.find?_eq_some_of_nodup Model.Task.id _
    (Model.syncTaskF u prev t) hnd2 (List.mem_map_of_mem _ ht)
  rw [Model.syncTaskF_id] at hfind
  constructor
  · intro hA
    have hval : Model.syncTaskF u prev t = Model.clearOwner t := by
      have hc2 : t.id ∈ prev ∧ t.assignedUser = u.id := ⟨hprev, hA⟩
      rw [Model.syncTaskF, if_neg hcur, if_pos hc2]
    rw [hTshape, hfind, hval]
  · intro hA
    have hval : Model.syncTaskF u prev t = t := by
      have hc2 : ¬(t.id ∈ prev ∧ t.assignedUser = u.id) := fun hh => hA hh.2
      rw [Model.syncTaskF, if_neg hcur, if_neg hc2]
    rw [hTshape, hfind, hval]

/-- Witness for C6 at a concrete store: both the cleared case and the
untouched (stale removal) case. -/
theorem syncUserPendingTasks_removed_pass_witness :
    (Model.syncUserPendingTasks (Model.User.mk "A" "nm" "e" []) ["t1"]
        (Model.DB.mk [] [Model.Task.mk "t1" "x" "" none false "A" "nm"])).tasks.find?
      (fun t0 => decide (t0.id = (Model.Task.mk "t1" "x" "" none false "A" "nm").id)) =
      some (Model.clearOwner (Model.Task.mk "t1" "x" "" none false "A" "nm")) ∧
    (Model.syncUserPendingTasks (Model.User.mk "A" "nm" "e" []) ["t2"]
        (Model.DB.mk [] [Model.Task.mk "t2" "x" "" none false "B" "nm2"])).tasks.find?
      (fun t0 => decide (t0.id = (Model.Task.mk "t2" "x" "" none false "B" "nm2").id)) =
      some (Model.Task.mk "t2" "x" "" none false "B" "nm2") :=
  ⟨(syncUserPendingTasks_removed_pass (Model.User.mk "A" "nm" "e" []) ["t1"]
      (Model.DB.mk [] [Model.Task.mk "t1" "x" "" none false "A" "nm"]) (by decide)
      (Model.Task.mk "t1" "x" "" none false "A" "nm") (by simp) (by decide) (by decide)).1
    rfl,
   (syncUserPendingTasks_removed_pass (Model.User.mk "A" "nm" "e" []) ["t2"]
      (Model.DB.mk [] [Model.Task.mk "t2" "x" "" none false "B" "nm2"]) (by decide)
      (Model.Task.mk "t2" "x" "" none false "B" "nm2") (by simp) (by decide) (by decide)).2
    (by decide)⟩

set_option maxHeartbeats 1600000 in
/-- C7: Reassigning a Task from owner A to a different owner B (both
existing users, final state not completed) removes the task's id from A's
pending set, adds it to B's, and leaves every other entry of both pending
sets unchanged. -/
theorem taskPut_reassign (isValid : String → Bool) (tid : String) (body : Model.TaskBody)
    (db db' : Model.DB) (hWF : Model.WF db)
    (task : Model.Task) (A B : Model.User)
    (hf : db.findTask tid = some task)
    (hA : A ∈ db.users) (hAid : task.assignedUser = A.id)
    (hB : B ∈ db.users) (hAB : A.id ≠ B.id)
    (hbody : Model.bodyAssignedUser body.assignedUser = B.id)
    (hcomp : parseBoolean body.completed false = false)
    (h : Model.taskPut isValid tid body db = .ok db') :
    ∃ A2 B2 : Model.User,
      db'.users.find? (fun v => decide (v.id = A.id)) = some A2 ∧
      db'.users.find? (fun v => decide (v.id = B.id)) = some B2 ∧
      tid ∉ A2.pendingTasks ∧ tid ∈ B2.pendingTasks ∧
      A2.pendingTasks.filter (fun x => decide (x ≠ tid)) =
        A.pendingTasks.filter (fun x => decide (x ≠ tid)) ∧
      B2.pendingTasks.filter (fun x => decide (x ≠ tid)) =
        B.pendingTasks.filter (fun x => decide (x ≠ tid)) := by
  obtain ⟨htask, htid⟩ := Model.findTask_some db tid task hf
  have hAne : A.id ≠ "" := hWF.2.2 A hA
  have hBne : B.id ≠ "" := hWF.2.2 B hB
  have hRne : task.assignedUser ≠ "" := by
    rw [hAid]
    exact hAne
  rw [Model.taskPut] at h
  by_cases hval : ¬ (isValid tid = true)
  · rw [if_pos hval] at h
    exact Except.noConfusion h
  · rw [if_neg hval] at h
    simp only [hf] at h
    cases hdl : parseDateValue body.deadline "deadline" with
    | error e =>
      simp only [hdl] at h
      exact Except.noConfusion h
    | ok deadlineValue =>
      simp only [hdl] at h
      cases hlu : Model.lookupAssignedUser isValid
          (Model.bodyAssignedUser body.assignedUser) db with
      | error e =>
        simp only [hlu] at h
        exact Except.noConfusion h
      | ok userDoc =>
        simp only [hlu] at h
        cases userDoc with
        | none =>
          exact absurd (hbody ▸ Model.lookupAssignedUser_none isValid _ db hlu) hBne
        | some B2 =>
          obtain ⟨hB2mem, hB2id, _⟩ := Model.lookupAssignedUser_some isValid _ db B2 hlu
          have hB2B : B2 = B :=
            List.inj_on_of_nodup_map hWF.1 hB2mem hB (by rw [hB2id, hbody])
          subst hB2B
          simp only [Model.assignTask] at h
          rw [if_pos hBne] at h
          have hg : task.assignedUser ≠ "" ∧ task.assignedUser ≠ B2.id := by
            refine ⟨hRne, ?_⟩
            rw [hAid]
            exact fun hh => hAB hh
          simp only [if_pos hg] at h
          have hcneg : ¬(parseBoolean body.completed false = true) := by
            rw [hcomp]
            exact fun hh => Bool.noConfusion hh
          rw [if_neg hcneg] at h
          injection h with h
          subst h
          generalize (Model.Task.mk task.id body.name (body.description.getD "")
            deadlineValue (parseBoolean body.completed false) B2.id B2.name) = t2
          have husers : (Model.addTaskToUser tid B2.id (Model.removeTaskFromUser tid
              task.assignedUser (Model.saveTask t2 (Model.removeTaskFromUser task.id
              task.assignedUser db)))).users =
              db.users.map (Model.adUser tid B2.id ∘ (Model.rmUser tid task.assignedUser ∘
                Model.rmUser task.id task.assignedUser)) := by
            rw [Model.addTaskToUser_users, Model.removeTaskFromUser_users,
              Model.saveTask_users, Model.removeTaskFromUser_users, List.map_map,
              List.map_map]
            rfl
          rw [husers]
          have hFid : ∀ v : Model.User,
              ((Model.adUser tid B2.id ∘ (Model.rmUser tid task.assignedUser ∘
                Model.rmUser task.id task.assignedUser)) v).id = v.id := by
            intro v
            simp only [Function.comp_apply, Model.adUser_id, Model.rmUser_id]
          have hndu : ((db.users.map (Model.adUser tid B2.id ∘
              (Model.rmUser tid task.assignedUser ∘
                Model.rmUser task.id task.assignedUser))).map Model.User.id).Nodup := by
            rw [List.map_map]
            have heq : db.users.map (Model.User.id ∘ (Model.adUser tid B2.id ∘
                (Model.rmUser tid task.assignedUser ∘
                  Model.rmUser task.id task.assignedUser))) = db.users.map Model.User.id :=
              List.map_congr_left (fun v _ => hFid v)
            rw [heq]
            exact hWF.1
          have hfindA := Model.find?_eq_some_of_nodup Model.User.id _
            ((Model.adUser tid B2.id ∘ (Model.rmUser tid task.assignedUser ∘
              Model.rmUser task.id task.assignedUser)) A) hndu (List.mem_map_of_mem _ hA)
          rw [hFid] at hfindA
          have hfindB := Model.find?_eq_some_of_nodup Model.User.id _
            ((Model.adUser tid B2.id ∘ (Model.rmUser tid task.assignedUser ∘
              Model.rmUser task.id task.assignedUser)) B2) hndu (List.mem_map_of_mem _ hB)
          rw [hFid] at hfindB
          have h1a : Model.rmUser task.id task.assignedUser A =
              Model.User.mk A.id A.name A.email
                (A.pendingTasks.filter (fun x => decide (x ≠ task.id))) := by
            have hcA : task.assignedUser ≠ "" ∧ A.id = task.assignedUser := ⟨hRne, hAid.symm⟩
            rw [Model.rmUser, if_pos hcA]
          have h2a : Model.rmUser tid task.assignedUser (Model.User.mk A.id A.name A.email
              (A.pendingTasks.filter (fun x => decide (x ≠ task.id)))) =
              Model.User.mk A.id A.name A.email
                ((A.pendingTasks.filter (fun x => decide (x ≠ task.id))).filter
                  (fun x => decide (x ≠ tid))) := by
            have hcA : task.assignedUser ≠ "" ∧ (Model.User.mk A.id A.name A.email
                (A.pendingTasks.filter (fun x => decide (x ≠ task.id)))).id =
                task.assignedUser := ⟨hRne, hAid.symm⟩
            rw [Model.rmUser, if_pos hcA]
          have h3a : Model.adUser tid B2.id (Model.User.mk A.id A.name A.email
              ((A.pendingTasks.filter (fun x => decide (x ≠ task.id))).filter
                (fun x => decide (x ≠ tid)))) =
              Model.User.mk A.id A.name A.email
                ((A.pendingTasks.filter (fun x => decide (x ≠ task.id))).filter
                  (fun x => decide (x ≠ tid))) := by
            have hcA : ¬(B2.id ≠ "" ∧ (Model.User.mk A.id A.name A.email
                ((A.pendingTasks.filter (fun x => decide (x ≠ task.id))).filter
                  (fun x => decide (x ≠ tid)))).id = B2.id) := fun hh => hAB hh.2
            rw [Model.adUser, if_neg hcA]
          have hFAval : (Model.adUser tid B2.id ∘ (Model.rmUser tid task.assignedUser ∘
              Model.rmUser task.id task.assignedUser)) A =
              Model.User.mk A.id A.name A.email
                ((A.pendingTasks.filter (fun x => decide (x ≠ task.id))).filter
                  (fun x => decide (x ≠ tid))) := by
            simp only [Function.comp_apply]
            rw [h1a, h2a, h3a]
          have h1b : Model.rmUser task.id task.assignedUser B2 = B2 := by
            rw [Model.rmUser, if_neg]
            rintro ⟨_, hh⟩
            rw [hAid] at hh
            exact hAB hh.symm
          have h2b : Model.rmUser tid task.assignedUser B2 = B2 := by
            rw [Model.rmUser, if_neg]
            rintro ⟨_, hh⟩
            rw [hAid] at hh
            exact hAB hh.symm
          have h3b : Model.adUser tid B2.id B2 =
              Model.User.mk B2.id B2.name B2.email
                (if tid ∈ B2.pendingTasks then B2.pendingTasks else B2.pendingTasks ++ [tid]) := by
            have hcB : B2.id ≠ "" ∧ B2.id = B2.id := ⟨hBne, rfl⟩
            rw [Model.adUser, if_pos hcB]
          have hFBval : (Model.adUser tid B2.id ∘ (Model.rmUser tid task.assignedUser ∘
              Model.rmUser task.id task.assignedUser)) B2 =
              Model.User.mk B2.id B2.name B2.email
                (if tid ∈ B2.pendingTasks then B2.pendingTasks else B2.pendingTasks ++ [tid]) := by
            simp only [Function.comp_apply]
            rw [h1b, h2b, h3b]
          refine ⟨_, _, hfindA, hfindB, ?_, ?_, ?_, ?_⟩
          · rw [hFAval]
            simp
          · rw [hFBval]
            by_cases hmem : tid ∈ B2.pendingTasks
            · simp only [if_pos hmem]
              exact hmem
            · simp only [if_neg hmem]
              exact List.mem_append_right _ (List.mem_singleton_self _)
          · rw [hFAval]
            show ((A.pendingTasks.filter (fun x => decide (x ≠ task.id))).filter
              (fun x => decide (x ≠ tid))).filter (fun x => decide (x ≠ tid)) =
              A.pendingTasks.filter (fun x => decide (x ≠ tid))
            rw [htid, List.filter_filter, List.filter_filter]
            refine List.filter_congr (fun x _ => ?_)
            rw [Bool.and_self, Bool.and_self]
          · rw [hFBval]
            show (if tid ∈ B2.pendingTasks then B2.pendingTasks
              else B2.pendingTasks ++ [tid]).filter (fun x => decide (x ≠ tid)) =
              B2.pendingTasks.filter (fun x => decide (x ≠ tid))
            by_cases hmem : tid ∈ B2.pendingTasks
            · rw [if_pos hmem]
            · rw [if_neg hmem, List.filter_append]
              simp

/-- Witness for C7: a concrete reassignment of task `t1` from user `A` to
user `B`. -/
theorem taskPut_reassign_witness :
    ∃ A2 B2 : Model.User,
      (Model.DB.mk
        [Model.User.mk "A" "na" "ea" [], Model.User.mk "B" "nb" "eb" ["t1"]]
        [Model.Task.mk "t1" "x" "" (some 5) false "B" "nb"]).users.find?
          (fun v => decide (v.id = "A")) = some A2 ∧
      (Model.DB.mk
        [Model.User.mk "A" "na" "ea" [], Model.User.mk "B" "nb" "eb" ["t1"]]
        [Model.Task.mk "t1" "x" "" (some 5) false "B" "nb"]).users.find?
          (fun v => decide (v.id = "B")) = some B2 ∧
      "t1" ∉ A2.pendingTasks ∧ "t1" ∈ B2.pendingTasks ∧
      A2.pendingTasks.filter (fun x => decide (x ≠ "t1")) =
        (Model.User.mk "A" "na" "ea" ["t1"]).pendingTasks.filter
          (fun x => decide (x ≠ "t1")) ∧
      B2.pendingTasks.filter (fun x => decide (x ≠ "t1")) =
        (Model.User.mk "B" "nb" "eb" []).pendingTasks.filter
          (fun x => decide (x ≠ "t1")) :=
  taskPut_reassign (fun _ => true) "t1"
    (Model.TaskBody.mk "x" none JSValue.undef (JSValue.str "B") (DateInput.valid 5))
    (Model.DB.mk
      [Model.User.mk "A" "na" "ea" ["t1"], Model.User.mk "B" "nb" "eb" []]
      [Model.Task.mk "t1" "x" "" (some 0) false "A" "na"])
    (Model.DB.mk
      [Model.User.mk "A" "na" "ea" [], Model.User.mk "B" "nb" "eb" ["t1"]]
      [Model.Task.mk "t1" "x" "" (some 5) false "B" "nb"])
    (by refine ⟨by decide, by decide, ?_⟩; decide)
    (Model.Task.mk "t1" "x" "" (some 0) false "A" "na")
    (Model.User.mk "A" "na" "ea" ["t1"]) (Model.User.mk "B" "nb" "eb" [])
    rfl (by decide) rfl (by decide) (by decide) rfl rfl rfl

set_option maxHeartbeats 1600000 in
/-- C10: Task update applies full-replace semantics to `completed`: an
update payload that omits the field resets a previously-completed task's
`completed` to `false`, and when the task ends up with a non-empty owner
its id is (re-)added to that owner's pending set. -/
theorem taskPut_omitted_completed (isValid : String → Bool) (tid : String)
    (body : Model.TaskBody) (db db' : Model.DB) (hWF : Model.WF db)
    (task : Model.Task) (B : Model.User)
    (hf : db.findTask tid = some task) (hB : B ∈ db.users)
    (htc : task.completed = true)
    (hown : task.assignedUser = B.id)
    (hbody : Model.bodyAssignedUser body.assignedUser = B.id)
    (hund : body.completed = JSValue.undef)
    (h : Model.taskPut isValid tid body db = .ok db') :
    ∃ (t2 : Model.Task) (B2 : Model.User),
      db'.tasks.find? (fun t0 => decide (t0.id = tid)) = some t2 ∧
      t2.completed = false ∧ t2.assignedUser = B.id ∧
      db'.users.find? (fun v => decide (v.id = B.id)) = some B2 ∧
      tid ∈ B2.pendingTasks := by
  obtain ⟨htask, htid⟩ := Model.findTask_some db tid task hf
  have hBne : B.id ≠ "" := hWF.2.2 B hB
  have hcf : parseBoolean body.completed false = false := by
    rw [hund]
    rfl
  rw [Model.taskPut] at h
  by_cases hval : ¬ (isValid tid = true)
  · rw [if_pos hval] at h
    exact Except.noConfusion h
  · rw [if_neg hval] at h
    simp only [hf] at h
    cases hdl : parseDateValue body.deadline "deadline" with
    | error e =>
      simp only [hdl] at h
      exact Except.noConfusion h
    | ok deadlineValue =>
      simp only [hdl] at h
      cases hlu : Model.lookupAssignedUser isValid
          (Model.bodyAssignedUser body.assignedUser) db with
      | error e =>
        simp only [hlu] at h
        exact Except.noConfusion h
      | ok userDoc =>
        simp only [hlu] at h
        cases userDoc with
        | none =>
          exact absurd (hbody ▸ Model.lookupAssignedUser_none isValid _ db hlu) hBne
        | some B2 =>
          obtain ⟨hB2mem, hB2id, _⟩ := Model.lookupAssignedUser_some isValid _ db B2 hlu
          have hB2B : B2 = B :=
            List.inj_on_of_nodup_map hWF.1 hB2mem hB (by rw [hB2id, hbody])
          subst hB2B
          simp only [Model.assignTask] at h
          rw [if_pos hBne] at h
          have hgneg : ¬(task.assignedUser ≠ "" ∧ task.assignedUser ≠ B2.id) := by
            rintro ⟨_, hh⟩
            exact hh hown
          simp only [if_neg hgneg] at h
          have hcneg : ¬(parseBoolean body.completed false = true) := by
            rw [hcf]
            exact fun hh => Bool.noConfusion hh
          rw [if_neg hcneg] at h
          injection h with h
          subst h
          generalize hT2 : (Model.Task.mk task.id body.name (body.description.getD "")
            deadlineValue (parseBoolean body.completed false) B2.id B2.name) = t2
          have ht2id : t2.id = task.id := by rw [← hT2]
          have ht2a : t2.assignedUser = B2.id := by rw [← hT2]
          have ht2c : t2.completed = parseBoolean body.completed false := by rw [← hT2]
          have htasks : (Model.addTaskToUser tid B2.id (Model.saveTask t2 db)).tasks =
              db.tasks.map (fun t0 => if t0.id = t2.id then t2 else t0) := by
            rw [Model.addTaskToUser_tasks, Model.saveTask_tasks]
          have husers : (Model.addTaskToUser tid B2.id (Model.saveTask t2 db)).users =
              db.users.map (Model.adUser tid B2.id) := by
            rw [Model.addTaskToUser_users, Model.saveTask_users]
          have hGid : ∀ t0 : Model.Task,
              ((fun t0 => if t0.id = t2.id then t2 else t0) t0).id = t0.id := by
            intro t0
            show (if t0.id = t2.id then t2 else t0).id = t0.id
            by_cases hcx : t0.id = t2.id
            · rw [if_pos hcx, hcx]
            · rw [if_neg hcx]
          have hndT : ((db.tasks.map (fun t0 => if t0.id = t2.id then t2 else t0)).map
              Model.Task.id).Nodup := by
            rw [List.map_map]
            have heq : db.tasks.map (Model.Task.id ∘ fun t0 =>
                if t0.id = t2.id then t2 else t0) = db.tasks.map Model.Task.id :=
              List.map_congr_left (fun t0 _ => hGid t0)
            rw [heq]
            exact hWF.2.1
          have hndU : ((db.users.map (Model.adUser tid B2.id)).map Model.User.id).Nodup := by
            rw [List.map_map]
            have heq : db.users.map (Model.User.id ∘ Model.adUser tid B2.id) =
                db.users.map Model.User.id :=
              List.map_congr_left (fun v _ => Model.adUser_id _ _ v)
            rw [heq]
            exact hWF.1
          have hfindT := Model.find?_eq_some_of_nodup Model.Task.id _
            ((fun t0 => if t0.id = t2.id then t2 else t0) task) hndT
            (List.mem_map_of_mem _ htask)
          have himg : (fun t0 => if t0.id = t2.id then t2 else t0) task = t2 := by
            show (if task.id = t2.id then t2 else task) = t2
            rw [if_pos ht2id.symm]
          rw [himg] at hfindT
          have hfindU := Model.find?_eq_some_of_nodup Model.User.id _
            (Model.adUser tid B2.id B2) hndU (List.mem_map_of_mem _ hB)
          rw [Model.adUser_id] at hfindU
          have hadd : Model.adUser tid B2.id B2 =
              Model.User.mk B2.id B2.name B2.email
                (if tid ∈ B2.pendingTasks then B2.pendingTasks
                 else B2.pendingTasks ++ [tid]) := by
            have hcB : B2.id ≠ "" ∧ B2.id = B2.id := ⟨hBne, rfl⟩
            rw [Model.adUser, if_pos hcB]
          refine ⟨t2, Model.adUser tid B2.id B2, ?_, ?_, ht2a, ?_, ?_⟩
          · rw [htasks]
            rw [show tid = t2.id by rw [ht2id, htid]]
            exact hfindT
          · rw [ht2c, hcf]
          · rw [husers]
            exact hfindU
          · rw [hadd]
            by_cases hmem : tid ∈ B2.pendingTasks
            · simp only [if_pos hmem]
              exact hmem
            · simp only [if_neg hmem]
              exact List.mem_append_right _ (List.mem_singleton_self _)

/-- Witness for C10: a concrete completed task whose update omits
`completed` and keeps its owner; the task is reset to incomplete and
re-added to the owner's pending set. -/
theorem taskPut_omitted_completed_witness :
    ∃ (t2 : Model.Task) (B2 : Model.User),
      (Model.DB.mk [Model.User.mk "B" "nb" "eb" ["t1"]]
        [Model.Task.mk "t1" "x" "" (some 5) false "B" "nb"]).tasks.find?
          (fun t0 => decide (t0.id = "t1")) = some t2 ∧
      t2.completed = false ∧ t2.assignedUser = (Model.User.mk "B" "nb" "eb" []).id ∧
      (Model.DB.mk [Model.User.mk "B" "nb" "eb" ["t1"]]
        [Model.Task.mk "t1" "x" "" (some 5) false "B" "nb"]).users.find?
          (fun v => decide (v.id = (Model.User.mk "B" "nb" "eb" []).id)) = some B2 ∧
      "t1" ∈ B2.pendingTasks :=
  taskPut_omitted_completed (fun _ => true) "t1"
    (Model.TaskBody.mk "x" none JSValue.undef (JSValue.str "B") (DateInput.valid 5))
    (Model.DB.mk [Model.User.mk "B" "nb" "eb" []]
      [Model.Task.mk "t1" "x" "" (some 0) true "B" "nb"])
    (Model.DB.mk [Model.User.mk "B" "nb" "eb" ["t1"]]
      [Model.Task.mk "t1" "x" "" (some 5) false "B" "nb"])
    (by refine ⟨by decide, by decide, ?_⟩; decide)
    (Model.Task.mk "t1" "x" "" (some 0) true "B" "nb")
    (Model.User.mk "B" "nb" "eb" []) rfl (by decide) rfl rfl rfl rfl rfl

/-- C9: The count-parameter coercion `parseCountParam` returns `true`
exactly when its input is the boolean `true` or a string whose lowercase
form is `"true"`; every other scalar — numbers, other strings, absent
values — yields `false`.  The function is total, so no input raises an
error. -/
theorem parseCountParam_characterization (v : JSValue) :
    parseCountParam v = true ↔
      (v = JSValue.bool true ∨ ∃ s, v = JSValue.str s ∧ jsLower s = "true") := by
  cases v with
  | undef => simp [parseCountParam]
  | nullv => simp [parseCountParam]
  | bool b => cases b <;> simp [parseCountParam]
  | num n => simp [parseCountParam]
  | str s => simp [parseCountParam]

/-- C3 counterexample: `parseBoolean` does not return the supplied default
on every unrecognized input — the string `"yes"` with default `false`
falls through to JS truthiness and yields `true`. -/
theorem parseBoolean_default_counterexample :
    parseBoolean (JSValue.str "yes") false = true := by decide

/-- C3 amended: `parseBoolean` returns the default only for
`undefined`/`null`; native booleans pass through; strings `'true'`/`'false'`
parse case-insensitively; every other input (other strings, numbers) falls
back to JS truthiness `Boolean(value)`, not to the default. -/
theorem parseBoolean_amended (d b : Bool) (s : String) :
    parseBoolean JSValue.undef d = d ∧
    parseBoolean JSValue.nullv d = d ∧
    parseBoolean (JSValue.bool b) d = b ∧
    (jsLower s = "true" → parseBoolean (JSValue.str s) d = true) ∧
    (jsLower s = "false" → parseBoolean (JSValue.str s) d = false) ∧
    (jsLower s ≠ "true" → jsLower s ≠ "false" →
        parseBoolean (JSValue.str s) d = truthyJS (JSValue.str s)) ∧
    (∀ n : Int, parseBoolean (JSValue.num n) d = truthyJS (JSValue.num n)) := by
  refine ⟨rfl, rfl, rfl, ?_, ?_, ?_, fun n => rfl⟩
  · intro h
    simp [parseBoolean, h]
  · intro h
    by_cases ht : jsLower s = "true"
    · rw [ht] at h
      exact absurd h (by decide)
    · simp [parseBoolean, ht, h]
  · intro ht hf
    simp [parseBoolean, ht, hf]

theorem parseBoolean_amended_witness :
    (jsLower "yes" ≠ "true") ∧ (jsLower "yes" ≠ "false") ∧
    parseBoolean (JSValue.str "yes") false = truthyJS (JSValue.str "yes") := by
  refine ⟨by decide, by decide, ?_⟩
  exact (parseBoolean_amended false true "yes").2.2.2.2.2.1 (by decide) (by decide)

/-- C8: `normalizeIdArray` returns the empty list (not an error) on
`undefined`/`null` input, and a non-array input is wrapped into a
one-element array before cleaning, so a single scalar id is handled exactly
like the one-element list of it. -/
theorem normalizeIdArray_scalar_inputs (isValid : String → Bool)
    (fieldName : String) (v : JSValue) :
    normalizeIdArray isValid (RawIds.single JSValue.undef) fieldName = Except.ok [] ∧
    normalizeIdArray isValid (RawIds.single JSValue.nullv) fieldName = Except.ok [] ∧
    normalizeIdArray isValid (RawIds.single v) fieldName =
      normalizeIdArray isValid (RawIds.list [v]) fieldName := by
  refine ⟨rfl, rfl, ?_⟩
  cases v <;> rfl

theorem mem_dedupFirst (x : String) (l : List String) : x ∈ dedupFirst l ↔ x ∈ l := by
  induction l with
  | nil => simp [dedupFirst]
  | cons a xs ih =>
      simp only [dedupFirst, List.mem_cons, List.mem_filter, ih, decide_eq_true_eq]
      constructor
      · rintro (rfl | ⟨hm, _⟩)
        · exact Or.inl rfl
        · exact Or.inr hm
      · rintro (rfl | hm)
        · exact Or.inl rfl
        · by_cases hxa : x = a
          · exact Or.inl hxa
          · exact Or.inr ⟨hm, hxa⟩

theorem nodup_dedupFirst (l : List String) : (dedupFirst l).Nodup := by
  induction l with
  | nil => simp [dedupFirst]
  | cons a xs ih =>
      rw [dedupFirst, List.nodup_cons]
      refine ⟨?_, ih.filter _⟩
      intro hmem
      have h2 := (List.mem_filter.mp hmem).2
      simp at h2

theorem pairwise_imp_mem {α : Type} {R S : α → α → Prop} (l : List α)
    (h : ∀ x ∈ l, ∀ y ∈ l, R x y → S x y) (hp : l.Pairwise R) : l.Pairwise S := by
  induction l with
  | nil => exact List.Pairwise.nil
  | cons a xs ih =>
      rw [List.pairwise_cons] at hp ⊢
      refine ⟨?_, ih ?_ hp.2⟩
      · intro y hy
        exact h a (List.mem_cons_self a xs) y (List.mem_cons_of_mem a hy) (hp.1 y hy)
      · intro x hx y hy hr
        exact h x (List.mem_cons_of_mem a hx) y (List.mem_cons_of_mem a hy) hr

theorem dedupFirst_pairwise (l : List String) :
    (dedupFirst l).Pairwise (fun x y => l.indexOf x < l.indexOf y) := by
  induction l with
  | nil => simp [dedupFirst]
  | cons a xs ih =>
      rw [dedupFirst, List.pairwise_cons]
      constructor
      · intro y hy
        have hyne : y ≠ a := by
          have h2 := (List.mem_filter.mp hy).2
          simpa using h2
        rw [List.indexOf_cons_self, List.indexOf_cons_ne _ (Ne.symm hyne)]
        exact Nat.succ_pos _
      · have hp : (List.filter (fun y => decide (y ≠ a)) (dedupFirst xs)).Pairwise
            (fun x y => xs.indexOf x < xs.indexOf y) :=
          List.Pairwise.sublist (List.filter_sublist _) ih
        refine pairwise_imp_mem _ ?_ hp
        intro x hx y hy hr
        have hxne : x ≠ a := by simpa using (List.mem_filter.mp hx).2
        have hyne : y ≠ a := by simpa using (List.mem_filter.mp hy).2
        rw [List.indexOf_cons_ne _ (Ne.symm hxne), List.indexOf_cons_ne _ (Ne.symm hyne)]
        exact Nat.succ_lt_succ hr

theorem normalizeIdArray_list (isValid : String → Bool) (vs : List JSValue)
    (fieldName : String) :
    normalizeIdArray isValid (RawIds.list vs) fieldName =
      match (dedupFirst (cleanedStrings vs)).find? (fun id => ! isValid id) with
      | some _ =>
          Except.error (createError 400 ("Invalid task id in \"" ++ fieldName ++ "\" array"))
      | none => Except.ok (dedupFirst (cleanedStrings vs)) := rfl

/-- C5: `normalizeIdArray` on a list input drops `undefined`/`null`/empty
entries, de-duplicates preserving first-occurrence order (the output is
duplicate-free, has the same members as the cleaned input, and is sorted by
first occurrence), validates every survivor, and fails with a 400 naming
the field whenever any cleaned entry is invalid; on
`["a","a","","b"]` with `"a"`,`"b"` valid it returns `["a","b"]`. -/
theorem normalizeIdArray_spec (isValid : String → Bool) (vs : List JSValue)
    (fieldName : String) (hA : isValid "a" = true) (hB : isValid "b" = true) :
    (∀ out, normalizeIdArray isValid (RawIds.list vs) fieldName = Except.ok out →
       out.Nodup ∧
       (∀ x, x ∈ out ↔ x ∈ cleanedStrings vs) ∧
       out.Pairwise
         (fun x y => (cleanedStrings vs).indexOf x < (cleanedStrings vs).indexOf y) ∧
       (∀ x ∈ out, isValid x = true)) ∧
    ((∃ x, x ∈ cleanedStrings vs ∧ isValid x = false) →
       normalizeIdArray isValid (RawIds.list vs) fieldName =
         Except.error (createError 400 ("Invalid task id in \"" ++ fieldName ++ "\" array"))) ∧
    normalizeIdArray isValid
        (RawIds.list [JSValue.str "a", JSValue.str "a", JSValue.str "", JSValue.str "b"])
        fieldName = Except.ok ["a", "b"] := by
  refine ⟨?_, ?_, ?_⟩
  · intro out hout
    rw [normalizeIdArray_list] at hout
    cases hfind : (dedupFirst (cleanedStrings vs)).find? (fun id => ! isValid id) with
    | some bad =>
        simp only [hfind] at hout
        exact Except.noConfusion hout
    | none =>
        simp only [hfind] at hout
        injection hout with h
        subst h
        refine ⟨nodup_dedupFirst _, fun x => mem_dedupFirst x _, dedupFirst_pairwise _, ?_⟩
        intro x hx
        have hall := List.find?_eq_none.mp hfind x hx
        simpa using hall
  · rintro ⟨x, hxc, hxbad⟩
    rw [normalizeIdArray_list]
    cases hfind : (dedupFirst (cleanedStrings vs)).find? (fun id => ! isValid id) with
    | some bad => simp only [hfind]
    | none =>
        exfalso
        have hxu : x ∈ dedupFirst (cleanedStrings vs) := (mem_dedupFirst x _).mpr hxc
        have hall := List.find?_eq_none.mp hfind x hxu
        simp [hxbad] at hall
  · rw [normalizeIdArray_list]
    have h1 : dedupFirst (cleanedStrings
        [JSValue.str "a", JSValue.str "a", JSValue.str "", JSValue.str "b"]) = ["a", "b"] := by
      decide
    have h2 : List.find? (fun id => ! isValid id) ["a", "b"] = none := by
      simp [List.find?, hA, hB]
    rw [h1, h2]

theorem normalizeIdArray_spec_witness :
    (fun s : String => decide (s ≠ "")) "a" = true ∧
    (fun s : String => decide (s ≠ "")) "b" = true ∧
    normalizeIdArray (fun s : String => decide (s ≠ ""))
        (RawIds.list [JSValue.str "a", JSValue.str "a", JSValue.str "", JSValue.str "b"])
        "pendingTasks" = Except.ok ["a", "b"] := by
  refine ⟨by decide, by decide, ?_⟩
  exact (normalizeIdArray_spec (fun s => decide (s ≠ ""))
    [JSValue.str "a", JSValue.str "a", JSValue.str "", JSValue.str "b"]
    "pendingTasks" (by decide) (by decide)).2.2

theorem parseJSONParam_error_status (v : Option RawJSON) (p : String) (e : Err)
    (h : parseJSONParam v p = Except.error e) : e.status = 400 := by
  cases v with
  | none => exact Except.noConfusion h
  | some r =>
      cases r with
      | malformed =>
          injection h with h2
          rw [← h2]
          rfl
      | wellFormed j => exact Except.noConfusion h

theorem parseNumberParam_error_status (v : Option NumRaw) (p : String) (e : Err)
    (h : parseNumberParam v p = Except.error e) : e.status = 400 := by
  cases v with
  | none => exact Except.noConfusion h
  | some r =>
      cases r with
      | nan =>
          injection h with h2
          rw [← h2]
          rfl
      | nonIntNum =>
          injection h with h2
          rw [← h2]
          rfl
      | intNum n =>
          simp only [parseNumberParam] at h
          split at h
          · injection h with h2
            rw [← h2]
            rfl
          · exact Except.noConfusion h

set_option maxHeartbeats 800000 in
/-- C4: in `buildQueryOptions`, a truthy `count` together with a supplied
projection (through `select` or its `filter` alias) always fails with a
status-400 error; and whenever options parse successfully with `count`
truthy, the resulting limit is `undefined` (no limit), overriding both the
request's `limit` and the collection default. -/
theorem buildQueryOptions_count_rules (req : ReqQuery) (opts : BuildOptions)
    (hcount : parseCountParam req.countQ = true) :
    (∀ j, (if req.selectQ.isSome then req.selectQ else req.filterQ)
            = some (RawJSON.wellFormed j) →
       truthyJSON j = true →
       ∃ e, buildQueryOptions req opts = Except.error e ∧ e.status = 400) ∧
    (∀ o, buildQueryOptions req opts = Except.ok o →
       o.count = true ∧ o.limit = none) := by
  constructor
  · intro j hsel htr
    have hse2 : parseJSONParam (if req.selectQ.isSome then req.selectQ else req.filterQ)
        (if req.selectQ.isSome then "select"
         else if req.filterQ.isSome then "filter" else "select")
        = Except.ok (some j) := by
      rw [hsel]
      rfl
    cases hw : parseJSONParam req.whereQ "where" with
    | error e =>
        exact ⟨e, by simp only [buildQueryOptions, hw], parseJSONParam_error_status _ _ _ hw⟩
    | ok filterRaw =>
    cases hs : parseJSONParam req.sortQ "sort" with
    | error e =>
        exact ⟨e, by simp only [buildQueryOptions, hw, hs], parseJSONParam_error_status _ _ _ hs⟩
    | ok sortv =>
    cases hsk : parseNumberParam req.skipQ "skip" with
    | error e =>
        exact ⟨e, by simp only [buildQueryOptions, hw, hs, hse2, hsk],
          parseNumberParam_error_status _ _ _ hsk⟩
    | ok skipv =>
    cases hl : parseNumberParam req.limitQ "limit" with
    | error e =>
        exact ⟨e, by simp only [buildQueryOptions, hw, hs, hse2, hsk, hl],
          parseNumberParam_error_status _ _ _ hl⟩
    | ok lim =>
        refine ⟨createError 400 "Cannot use \"select\" parameter when \"count\" is true",
          ?_, rfl⟩
        simp [buildQueryOptions, hw, hs, hse2, hsk, hl, hcount, htr]
  · intro o ho
    cases hw : parseJSONParam req.whereQ "where" with
    | error e =>
        simp only [buildQueryOptions, hw] at ho
        exact Except.noConfusion ho
    | ok filterRaw =>
    cases hs : parseJSONParam req.sortQ "sort" with
    | error e =>
        simp only [buildQueryOptions, hw, hs] at ho
        exact Except.noConfusion ho
    | ok sortv =>
    cases hse : parseJSONParam (if req.selectQ.isSome then req.selectQ else req.filterQ)
        (if req.selectQ.isSome then "select"
         else if req.filterQ.isSome then "filter" else "select") with
    | error e =>
        simp only [buildQueryOptions, hw, hs, hse] at ho
        exact Except.noConfusion ho
    | ok selectv =>
    cases hsk : parseNumberParam req.skipQ "skip" with
    | error e =>
        simp only [buildQueryOptions, hw, hs, hse, hsk] at ho
        exact Except.noConfusion ho
    | ok skipv =>
    cases hl : parseNumberParam req.limitQ "limit" with
    | error e =>
        simp only [buildQueryOptions, hw, hs, hse, hsk, hl] at ho
        exact Except.noConfusion ho
    | ok lim =>
        simp only [buildQueryOptions, hw, hs, hse, hsk, hl] at ho
        split at ho
        · exact Except.noConfusion ho
        · injection ho with h2
          rw [← h2]
          constructor
          · exact hcount
          · simp [hcount]

theorem buildQueryOptions_count_rules_witness :
    parseCountParam (JSValue.bool true) = true ∧
    (∃ e, buildQueryOptions
        { whereQ := none, sortQ := none,
          selectQ := some (RawJSON.wellFormed (JSON.obj [("name", JSON.num 1)])),
          filterQ := none, skipQ := none, limitQ := none, countQ := JSValue.bool true }
        { defaultLimit := some 100 } = Except.error e ∧ e.status = 400) := by
  refine ⟨rfl, ?_⟩
  exact (buildQueryOptions_count_rules
    { whereQ := none, sortQ := none,
      selectQ := some (RawJSON.wellFormed (JSON.obj [("name", JSON.num 1)])),
      filterQ := none, skipQ := none, limitQ := none, countQ := JSValue.bool true }
    { defaultLimit := some 100 } rfl).1 (JSON.obj [("name", JSON.num 1)]) rfl rfl

/-- C2 counterexample: a `GET /users` request with `limit` exactly 0 and
count off does not return an empty array without touching the store — the
handler still issues a `find` query (carrying limit 0); the claimed
short-circuit exists only in the tasks handler. -/
theorem usersGet_limit0_counterexample :
    usersGet { whereQ := none, sortQ := none, selectQ := none, filterQ := none,
               skipQ := none, limitQ := some (NumRaw.intNum 0), countQ := JSValue.undef }
      = Except.ok (ListOutcome.findQuery
          { filter := JSON.obj [], select := none, sort := none,
            skip := none, limit := some 0 }) ∧
    (∀ q, ListOutcome.findQuery q ≠ ListOutcome.shortCircuit) :=
  ⟨rfl, fun _ h => ListOutcome.noConfusion h⟩

/-- C2 amended: the `limit === 0` short-circuit exists only on the Tasks
collection.  When the parsed options have count off and limit exactly 0,
`GET /tasks` answers `[]` without querying `find`, while `GET /users`
still issues a `find` query (with limit 0) against the store. -/
theorem limit0_short_circuit_amended (req : ReqQuery) :
    (∀ o, buildQueryOptions req { defaultLimit := some 100 } = Except.ok o →
        o.count = false → o.limit = some 0 →
        tasksGet req = Except.ok ListOutcome.shortCircuit) ∧
    (∀ o, buildQueryOptions req { defaultLimit := none } = Except.ok o →
        o.count = false → o.limit = some 0 →
        usersGet req = Except.ok (ListOutcome.findQuery
          { filter := o.filter, select := truthyOpt o.select,
            sort := truthyOpt o.sort, skip := o.skip, limit := some 0 })) := by
  constructor
  · intro o ho hc hl
    simp [tasksGet, ho, hc, hl]
  · intro o ho hc hl
    simp [usersGet, ho, hc, hl]

theorem limit0_short_circuit_amended_witness :
    tasksGet { whereQ := none, sortQ := none, selectQ := none, filterQ := none,
               skipQ := none, limitQ := some (NumRaw.intNum 0), countQ := JSValue.undef }
      = Except.ok ListOutcome.shortCircuit ∧
    usersGet { whereQ := none, sortQ := none, selectQ := none, filterQ := none,
               skipQ := none, limitQ := some (NumRaw.intNum 0), countQ := JSValue.undef }
      = Except.ok (ListOutcome.findQuery
          { filter := JSON.obj [], select := none, sort := none,
            skip := none, limit := some 0 }) := by
  constructor
  · exact (limit0_short_circuit_amended
      { whereQ := none, sortQ := none, selectQ := none, filterQ := none,
        skipQ := none, limitQ := some (NumRaw.intNum 0), countQ := JSValue.undef }).1
      { filter := JSON.obj [], sort := none, select := none, skip := none,
        limit := some 0, count := false } rfl rfl rfl
  · exact (limit0_short_circuit_amended
      { whereQ := none, sortQ := none, selectQ := none, filterQ := none,
        skipQ := none, limitQ := some (NumRaw.intNum 0), countQ := JSValue.undef }).2
      { filter := JSON.obj [], sort := none, select := none, skip := none,
        limit := some 0, count := false } rfl rfl rfl
